import Mathlib

/-!
Verification of the mindmap core of `auto_mindmap`
(`src/utils/markdownParser.ts` and `src/utils/layout.ts`).

Modelling choices:
* JavaScript numbers are modelled as exact rationals (`ℚ`); every constant
  appearing in the source (0.5, 0.6, 0.8, …) is representable, and all claims
  under scrutiny are about the algebraic structure of the computation.
* The TypeScript code threads a mutable `Map` through the layout recursion and
  mutates node objects in the parser.  Here each layout function returns the
  list of `positions.set` calls it performs, in execution order, and
  `calculateLayout` folds the JS `Map.set` semantics (`mset`) over that list;
  the parser's mutable stack of node references becomes a stack of frames whose
  pending children are attached when the frame is popped (or at end of input),
  which reproduces the mutation order exactly.
* Strings are processed as their lists of characters; `splitLines` models
  `split('\n')`, and the JS `\s` character class / `trim` are modelled by
  `isJsSpace`.
-/

namespace AutoMindmap

/-- Tree node shape from `markdownParser.ts` (`INodeData`).  The optional
`expanded?: boolean` field is modelled as a `Bool` (absent = `false`). -/
inductive INodeData where
  | mk (id : String) (text : String) (level : Nat) (children : List INodeData)
       (expanded : Bool)

def INodeData.id : INodeData → String
  | .mk i _ _ _ _ => i

def INodeData.text : INodeData → String
  | .mk _ t _ _ _ => t

def INodeData.level : INodeData → Nat
  | .mk _ _ l _ _ => l

def INodeData.children : INodeData → List INodeData
  | .mk _ _ _ c _ => c

def INodeData.expanded : INodeData → Bool
  | .mk _ _ _ _ e => e

mutual
/-- `getAllNodes` from `layout.ts`: the node and all descendants, preorder. -/
def getAllNodes : INodeData → List INodeData
  | .mk i t l cs e => .mk i t l cs e :: getAllNodesList cs

def getAllNodesList : List INodeData → List INodeData
  | [] => []
  | c :: cs => getAllNodes c ++ getAllNodesList cs
end

mutual
/-- `getVisibleNodes` from `markdownParser.ts`: the node, and recursively its
children when it is expanded. -/
def getVisibleNodes : INodeData → List INodeData
  | .mk i t l cs e => .mk i t l cs e :: (if e then getVisibleNodesList cs else [])

def getVisibleNodesList : List INodeData → List INodeData
  | [] => []
  | c :: cs => getVisibleNodes c ++ getVisibleNodesList cs
end

/-- JS `split('\n')` on the character list: cut at every newline, keeping
empty segments (`""` splits to `[""]`, a trailing newline yields a final
empty segment). -/
def splitLinesList : List Char → List (List Char)
  | [] => [[]]
  | c :: r =>
    match splitLinesList r with
    | [] => [[]]
    | s :: ss => if c = '\n' then [] :: s :: ss else (c :: s) :: ss

/-- JS `markdown.split('\n')`. -/
def splitLines (s : String) : List String :=
  (splitLinesList s.toList).map String.mk

/-- Character class of the JavaScript `\s` regex class and `String.trim`. -/
def isJsSpace (c : Char) : Bool :=
  c == ' ' || c == '\t' || c == '\n' || c == '\r' ||
  c.toNat == 0x0b || c.toNat == 0x0c || c.toNat == 0xa0 || c.toNat == 0x1680 ||
  (0x2000 ≤ c.toNat && c.toNat ≤ 0x200a) ||
  c.toNat == 0x2028 || c.toNat == 0x2029 || c.toNat == 0x202f ||
  c.toNat == 0x205f || c.toNat == 0x3000 || c.toNat == 0xfeff

/-- JS `String.trim` on a character list: strip leading and trailing `\s`. -/
def trimList (cs : List Char) : List Char :=
  ((cs.dropWhile isJsSpace).reverse.dropWhile isJsSpace).reverse

/-- JS line terminators: the characters the regex `.` never matches and before
which `$` (without the `m` flag) never anchors. -/
def isJsTerminator (c : Char) : Bool :=
  c == '\n' || c == '\r' || c.toNat == 0x2028 || c.toNat == 0x2029

/-- The `replace(/\s*-\s*$/, '')` step applied to heading text: remove one
trailing dash together with the whitespace around it; leave the string
unchanged when it does not end in (whitespace followed by) a dash. -/
def stripTrailingDash (cs : List Char) : List Char :=
  match (cs.reverse.dropWhile isJsSpace) with
  | '-' :: r => ((r.dropWhile isJsSpace).reverse)
  | _ => cs

/-- Match of `/^(#{1,6})\s+(.*)$/` against the trimmed line, followed by
`.trim().replace(/\s*-\s*$/, '')` on the captured text: returns the marker
count and the processed heading text.  `.` never matches a line terminator and
`$` (non-multiline) anchors only at the end of the input, so the match
succeeds exactly when the remainder after the maximal `\s+` run — which is
then the capture — contains no line terminator. -/
def headingParse (t : List Char) : Option (Nat × String) :=
  let hashes := t.takeWhile (fun c => c == '#')
  let n := hashes.length
  if 1 ≤ n ∧ n ≤ 6 then
    match t.drop n with
    | [] => none
    | c :: r =>
      if isJsSpace c &&
          ((c :: r).dropWhile isJsSpace).all (fun ch => !isJsTerminator ch) then
        some (n, String.mk (stripTrailingDash (trimList (c :: r))))
      else none
  else none

/-- Match of `/^[-*]\s+(.*)$/` against the trimmed line, followed by `.trim()`
on the captured text; as for the heading regex, a line terminator surviving
past the `\s+` run defeats the `(.*)$` tail. -/
def listParse (t : List Char) : Option String :=
  match t with
  | m :: c :: r =>
    if (m == '-' || m == '*') && isJsSpace c &&
        ((c :: r).dropWhile isJsSpace).all (fun ch => !isJsTerminator ch) then
      some (String.mk (trimList (c :: r)))
    else none
  | _ => none

/-- `calculateIndentLevel` from `markdownParser.ts`: leading-whitespace run of
the raw line; one tab counts as two spaces, two spaces are one level. -/
def calculateIndentLevel (line : String) : Nat :=
  let leadingSpaces := line.toList.takeWhile isJsSpace
  let tabCount := (leadingSpaces.filter (fun c => c == '\t')).length
  let spaceCount := (leadingSpaces.filter (fun c => c != '\t')).length
  tabCount * 2 + spaceCount / 2

/-- Heading line that actually carries text: the `if (text)` guard of both the
root-selection pass and the main loop of `parseMarkdown`. -/
def effHeading (line : String) : Option (Nat × String) :=
  match headingParse (trimList line.toList) with
  | some (n, t) => if t ≠ "" then some (n, t) else none
  | none => none

/-- One iteration of `parseMarkdown`'s main loop, reduced to its emission
behaviour: given (current base level, is-first-heading flag) and the raw line,
return the emitted (text, level) if any, and the updated state.  Branch order
and guards follow the source: headings first, then list items, then bare
indented text. -/
def lineStep (st : Nat × Bool) (line : String) : Option (String × Nat) × (Nat × Bool) :=
  let t := trimList line.toList
  if t = [] then (none, st)
  else
    match headingParse t with
    | some (lvl, text) =>
      if text ≠ "" then
        if st.2 then (none, (lvl, false))
        else (some (text, lvl), (lvl, false))
      else (none, st)
    | none =>
      match listParse t with
      | some text =>
        if text ≠ "" then
          (some (text, st.1 + calculateIndentLevel line + 1), st)
        else (none, st)
      | none =>
        match t with
        | c :: _ =>
          if c ≠ '#' ∧ c ≠ '-' ∧ c ≠ '*' ∧ 0 < calculateIndentLevel line then
            (some (String.mk t, st.1 + calculateIndentLevel line), st)
          else (none, st)
        | [] => (none, st)

/-- Stack frame of `parseMarkdown`: a node under construction (its `children`
list grows as frames above it are popped) together with the level it was
pushed at. -/
structure Frame where
  node : INodeData
  minLevel : Nat

/-- Append a finished child node as the last child of a frame's node. -/
def attachChild (child : INodeData) (f : Frame) : Frame :=
  ⟨.mk f.node.id f.node.text f.node.level (f.node.children ++ [child]) f.node.expanded,
   f.minLevel⟩

/-- Body of the `while (stack.length > 1 && top.minLevel >= level)` pop loop of
`processNode`, carrying the current top frame: popping attaches the top's node
as the last child of the frame below (the mutation the TS code performed when
the child was created). -/
def popWhileAux (lvl : Nat) (f : Frame) : List Frame → List Frame
  | [] => [f]
  | g :: r =>
    if lvl ≤ f.minLevel then popWhileAux lvl (attachChild f.node g) r
    else f :: g :: r

/-- The pop loop of `processNode` on a top-first stack. -/
def popWhile (lvl : Nat) (s : List Frame) : List Frame :=
  match s with
  | [] => []
  | f :: rest => popWhileAux lvl f rest

/-- `processNode` from `markdownParser.ts`: pop to the right parent, then push
a fresh collapsed node (its attachment to the parent happens when its frame is
later popped, or by `collapseStack` at end of input). -/
def processNode (id text : String) (lvl : Nat) (stack : List Frame) : List Frame :=
  { node := .mk id text lvl [] false, minLevel := lvl } :: popWhile lvl stack

/-- Fold the remaining stack at end of input from the top, attaching every
open frame to its parent. -/
def collapseAux (f : Frame) : List Frame → INodeData
  | [] => f.node
  | g :: r => collapseAux (attachChild f.node g) r

/-- Collapse the whole stack at end of input; returns the root node (the
bottom of the stack). -/
def collapseStack (s : List Frame) : INodeData :=
  match s with
  | [] => .mk "" "" 0 [] false
  | f :: rest => collapseAux f rest

/-- Parser state: node stack, id counter, current base level, first-heading
flag. -/
structure PState where
  stack : List Frame
  counter : Nat
  base : Nat
  fh : Bool

/-- One full iteration of `parseMarkdown`'s main loop. -/
def parseLine (st : PState) (line : String) : PState :=
  match lineStep (st.base, st.fh) line with
  | (some (t, l), bf) =>
    { stack := processNode ("node-" ++ toString st.counter) t l st.stack
      counter := st.counter + 1, base := bf.1, fh := bf.2 }
  | (none, bf) => { st with base := bf.1, fh := bf.2 }

/-- Root-selection pass of `parseMarkdown`: text of the first heading with
non-empty processed text, defaulting to the fixed label. -/
def findRootText (lines : List String) : String :=
  match lines.findSome? effHeading with
  | some (_, t) => t
  | none => "中心主题"

/-- The initial parser state: the stack holds the root (expanded, level 0) at
minimum level 0. -/
def initState (rootText : String) : PState :=
  { stack := [{ node := .mk "root" rootText 0 [] true, minLevel := 0 }]
    counter := 0, base := 0, fh := true }

/-- `parseMarkdown` from `markdownParser.ts`. -/
def parseMarkdown (markdown : String) : INodeData :=
  let lines := splitLines markdown
  collapseStack (lines.foldl parseLine (initState (findRootText lines))).stack

/-- The root label `parseMarkdown` uses for a given input. -/
def rootLabel (markdown : String) : String :=
  findRootText (splitLines markdown)

/-- An emitted parser event: assigned id, text, and level. -/
structure Ev where
  id : String
  text : String
  level : Nat

instance : DecidableEq Ev := fun a b => by
  cases a; cases b
  exact decidable_of_iff (_ = _ ∧ _ = _ ∧ _ = _) (by simp [Ev.mk.injEq]; tauto)

/-- The sequence of (text, level) emissions of the main loop, without ids. -/
def eventsOf (st : Nat × Bool) : List String → List (String × Nat)
  | [] => []
  | l :: ls =>
    match lineStep st l with
    | (some e, st1) => e :: eventsOf st1 ls
    | (none, st1) => eventsOf st1 ls

/-- Attach sequential ids `node-c`, `node-(c+1)`, … to emissions. -/
def withIds (c : Nat) : List (String × Nat) → List Ev
  | [] => []
  | (t, l) :: r => { id := "node-" ++ toString c, text := t, level := l } :: withIds (c + 1) r

/-- All events the parser emits for an input, with their assigned ids. -/
def parseEvents (markdown : String) : List Ev :=
  withIds 0 (eventsOf (0, true) (splitLines markdown))

/-- Replay a list of events through `processNode`. -/
def stackBuild (evs : List Ev) (stack : List Frame) : List Frame :=
  evs.foldl (fun s e => processNode e.id e.text e.level s) stack

/-! ### Dimension estimator (`calculateNodeDimensions` in layout.ts) -/

/-- Per-level font table of `getFontConfig`. -/
structure FontConfig where
  chineseWidth : Nat
  englishWidth : Nat
  padding : Nat
  baseHeight : Nat

/-- `getFontConfig` from `layout.ts`. -/
def getFontConfig (level : Nat) : FontConfig :=
  match level with
  | 0 => ⟨22, 12, 56, 52⟩
  | 1 => ⟨18, 10, 28, 36⟩
  | 2 => ⟨16, 9, 24, 32⟩
  | 3 => ⟨14, 8, 20, 30⟩
  | _ => ⟨13, 7, 20, 28⟩

/-- The CJK test `/[一-龥　-〿＀-￯]/` applied to one
character. -/
def isCJK (c : Char) : Bool :=
  (0x4e00 ≤ c.toNat && c.toNat ≤ 0x9fa5) ||
  (0x3000 ≤ c.toNat && c.toNat ≤ 0x303f) ||
  (0xff00 ≤ c.toNat && c.toNat ≤ 0xffef)

/-- Estimated width of one node: per-character widths by CJK class, plus
padding, clamped to a minimum of 60. -/
def estimatedWidth (node : INodeData) : Nat :=
  let fc := getFontConfig node.level
  let sum := (node.text.toList.map
    (fun c => if isCJK c then fc.chineseWidth else fc.englishWidth)).sum
  max 60 (sum + fc.padding)

/-- Extra height added past the 180-unit width threshold (linear to 350, then a
steeper linear term); `Math.floor` is Nat division. -/
def extraHeight (w : Nat) : Nat :=
  if 180 < w then
    if w ≤ 350 then (w - 180) / 12
    else 14 + (w - 350) / 10
  else 0

/-- Estimated height of one node: the root keeps the base height; other nodes
add the width-driven extra height. -/
def estimatedHeight (node : INodeData) (w : Nat) : Nat :=
  let fc := getFontConfig node.level
  if node.id = "root" then fc.baseHeight else fc.baseHeight + extraHeight w

/-- Width and height of a single node, as computed inside the loop of
`calculateNodeDimensions`. -/
def nodeDimension (node : INodeData) : Nat × Nat :=
  let w := estimatedWidth node
  (w, estimatedHeight node w)

/-- Association list standing for a JS `Map`: `mapSet` replaces the value in
place when the key is present, otherwise appends. -/
def mapSet {α : Type} (m : List (String × α)) (k : String) (v : α) : List (String × α) :=
  if m.any (fun kv => kv.1 = k) then
    m.map (fun kv => if kv.1 = k then (k, v) else kv)
  else m ++ [(k, v)]

/-- JS `Map.get` on the association list. -/
def mapGet {α : Type} (m : List (String × α)) (k : String) : Option α :=
  (m.find? (fun kv => kv.1 = k)).map (fun kv => kv.2)

/-- `calculateNodeDimensions` from `layout.ts`: one `dimensions.set` per node,
in traversal order (the `_defaultWidth`/`_defaultHeight` arguments are unused
in the source). -/
def calculateNodeDimensions (nodes : List INodeData) : List (String × (Nat × Nat)) :=
  nodes.foldl (fun m n => mapSet m n.id (nodeDimension n)) []

/-- Dimension lookup `dimensions.get(id)!`; the default is unreachable because
the dimension map is computed over every node of the tree. -/
def dimOf (dims : List (String × (Nat × Nat))) (id : String) : Nat × Nat :=
  (mapGet dims id).getD (0, 0)

/-! ### Layout engine -/

/-- Output record of the layout (`NodePosition` in layout.ts); coordinates are
exact rationals. -/
structure NodePosition where
  id : String
  text : String
  x : ℚ
  y : ℚ
  width : ℚ
  height : ℚ
  level : Nat
  hasChildren : Bool
  expanded : Bool
  parentId : Option String
deriving DecidableEq

/-- Layout direction option. -/
inductive Direction where
  | left
  | right
  | both
deriving DecidableEq

/-- One side of the diagram, the `'left' | 'right'` parameter of
`layoutChildBranch`. -/
inductive Side where
  | left
  | right
deriving DecidableEq

/-- Sign of a side: −1 for left, +1 for right. -/
def sideSign : Side → ℚ
  | .left => -1
  | .right => 1

/-- `LayoutOptions` with all defaults filled in (the `Partial` options object
of `calculateLayout`). -/
structure LayoutOptions where
  direction : Direction
  horizontalSpacing : ℚ
  verticalSpacing : ℚ
  nodeWidth : ℚ
  nodeHeight : ℚ
  centerOffset : ℚ
  levelSpacingMultiplier : ℚ

/-- Default option values of `calculateLayout`. -/
def defaultLayoutOptions : LayoutOptions :=
  ⟨.both, 140, 16, 100, 32, 0, 85/100⟩

mutual
/-- `calculateNodeBranchHeight` from `layout.ts`. -/
def calculateNodeBranchHeight (node : INodeData) (dims : List (String × (Nat × Nat)))
    (vs : ℚ) : ℚ :=
  match node with
  | .mk i _ _ cs e =>
    let nodeHeight : ℚ := ((dimOf dims i).2 : ℚ)
    let minBranchHeight := max nodeHeight 32
    if e && !cs.isEmpty then max minBranchHeight (calculateSubtreeHeight cs dims vs)
    else minBranchHeight

/-- `calculateSubtreeHeight` from `layout.ts`: sum of branch heights plus
`(count − 1)` gaps. -/
def calculateSubtreeHeight (nodes : List INodeData) (dims : List (String × (Nat × Nat)))
    (vs : ℚ) : ℚ :=
  match nodes with
  | [] => 0
  | ns => sumBranchHeights ns dims vs + ((ns.length : ℚ) - 1) * vs

/-- Total of `calculateNodeBranchHeight` over a sibling list. -/
def sumBranchHeights (nodes : List INodeData) (dims : List (String × (Nat × Nat)))
    (vs : ℚ) : ℚ :=
  match nodes with
  | [] => 0
  | n :: ns => calculateNodeBranchHeight n dims vs + sumBranchHeights ns dims vs
end

/-- Build the `NodePosition` record written by the layout for a child node. -/
def mkChildPos (c : INodeData) (x y : ℚ) (d : Nat × Nat) (pid : String) : NodePosition :=
  ⟨c.id, c.text, x, y, (d.1 : ℚ), (d.2 : ℚ), c.level, !c.children.isEmpty,
   c.expanded, some pid⟩

/-- Build the `NodePosition` record written for the root. -/
def mkRootPos (root : INodeData) (x y : ℚ) (d : Nat × Nat) : NodePosition :=
  ⟨root.id, root.text, x, y, (d.1 : ℚ), (d.2 : ℚ), root.level, !root.children.isEmpty,
   root.expanded, none⟩

mutual
/-- `layoutChildBranch` from `layout.ts`, rendered as the ordered list of
`positions.set` writes it performs.  `(x, y)` is the parent's position. -/
def layoutChildBranch (parent : INodeData) (dims : List (String × (Nat × Nat)))
    (x y : ℚ) (dir : Side) (hs vs : ℚ) : List NodePosition :=
  match parent with
  | .mk i _ lvl cs e =>
    if !e || cs.isEmpty then []
    else
      let pd := dimOf dims i
      let spacingMultiplier : ℚ := if 2 ≤ lvl then 1 else 4/5
      let hGap := hs * spacingMultiplier * (3/5)
      let anchorX := x + sideSign dir * ((pd.1 : ℚ) / 2 + hGap)
      let total := calculateSubtreeHeight cs dims vs
      layoutChildren cs i dims anchorX (y - total / 2) dir hs vs

/-- The `for (const child of ...)` loop shared by `layoutChildBranch` and the
two root-children loops of `calculateBothDirectionLayout`: place each child on
the anchor line, recurse when it is expanded, advance the vertical offset. -/
def layoutChildren (cs : List INodeData) (pid : String)
    (dims : List (String × (Nat × Nat))) (anchorX yOffset : ℚ) (dir : Side)
    (hs vs : ℚ) : List NodePosition :=
  match cs with
  | [] => []
  | c :: rest =>
    let cd := dimOf dims c.id
    let branchHeight := calculateNodeBranchHeight c dims vs
    let cy := yOffset + branchHeight / 2
    let cx := anchorX + sideSign dir * ((cd.1 : ℚ) / 2)
    let recWrites :=
      if c.expanded && !c.children.isEmpty then layoutChildBranch c dims cx cy dir hs vs
      else []
    mkChildPos c cx cy cd pid :: recWrites ++
      layoutChildren rest pid dims anchorX (yOffset + branchHeight + vs) dir hs vs
end

/-- `calculateBothDirectionLayout` from `layout.ts` as its ordered write list:
root first, then the left half (`ceil(n/2)` children) on anchors offset by
`0.5 × horizontalSpacing` from the root's edges, then the right half. -/
def calculateBothDirectionLayout (root : INodeData) (dims : List (String × (Nat × Nat)))
    (hs vs centerOffset : ℚ) : List NodePosition :=
  let rootDim := dimOf dims root.id
  let rootPos := mkRootPos root centerOffset 0 rootDim
  if root.children.isEmpty then [rootPos]
  else
    let children := root.children
    let leftCount := (children.length + 1) / 2
    let leftChildren := children.take leftCount
    let rightChildren := children.drop leftCount
    let leftWrites :=
      if !leftChildren.isEmpty then
        let leftHeight := calculateSubtreeHeight leftChildren dims vs
        let leftAnchorX := centerOffset - (rootDim.1 : ℚ) / 2 - hs * (1/2)
        layoutChildren leftChildren root.id dims leftAnchorX (-(leftHeight / 2))
          .left hs vs
      else []
    let rightWrites :=
      if !rightChildren.isEmpty then
        let rightHeight := calculateSubtreeHeight rightChildren dims vs
        let rightAnchorX := centerOffset + (rootDim.1 : ℚ) / 2 + hs * (1/2)
        layoutChildren rightChildren root.id dims rightAnchorX (-(rightHeight / 2))
          .right hs vs
      else []
    rootPos :: leftWrites ++ rightWrites

/-- `calculateSingleDirectionLayout` from `layout.ts` as its write list: the
root is written at `(0, 0)` (the `centerOffset` option is not consulted), then
`layoutChildBranch` runs from the root. -/
def calculateSingleDirectionLayout (root : INodeData)
    (dims : List (String × (Nat × Nat))) (hs vs : ℚ) (dir : Side) : List NodePosition :=
  let rootDim := dimOf dims root.id
  mkRootPos root 0 0 rootDim :: layoutChildBranch root dims 0 0 dir hs vs

/-- JS `Map.set` keyed by the node id (every write of the layout uses the
entry's own id as its key). -/
def mset (m : List NodePosition) (e : NodePosition) : List NodePosition :=
  if m.any (fun o => o.id = e.id) then
    m.map (fun o => if o.id = e.id then e else o)
  else m ++ [e]

/-- The ordered list of writes `calculateLayout` performs. -/
def layoutWrites (root : INodeData) (options : LayoutOptions) : List NodePosition :=
  let dims := calculateNodeDimensions (getAllNodes root)
  match options.direction with
  | .both =>
    calculateBothDirectionLayout root dims options.horizontalSpacing
      options.verticalSpacing options.centerOffset
  | .left =>
    calculateSingleDirectionLayout root dims options.horizontalSpacing
      options.verticalSpacing .left
  | .right =>
    calculateSingleDirectionLayout root dims options.horizontalSpacing
      options.verticalSpacing .right

/-- `calculateLayout` from `layout.ts`: the position map, as the fold of the
JS `Map.set` semantics over the ordered writes. -/
def calculateLayout (root : INodeData) (options : LayoutOptions) : List NodePosition :=
  (layoutWrites root options).foldl mset []

/-! ### Edge path generator (`generateLinkPath` in layout.ts) -/

/-- The geometric content of the SVG string
`M fromX fromY C cp1x cp1y, cp2x cp2y, toX toY` built by `generateLinkPath`. -/
structure LinkGeom where
  isLeftBranch : Bool
  fromX : ℚ
  fromY : ℚ
  toX : ℚ
  toY : ℚ
  cp1x : ℚ
  cp1y : ℚ
  cp2x : ℚ
  cp2y : ℚ
deriving DecidableEq

/-- `generateLinkPath` from `layout.ts`; the returned record holds the eight
numbers interpolated into the SVG path string, in order. -/
def generateLinkPath (src dst : NodePosition) : LinkGeom :=
  let isLeftBranch := dst.x < src.x
  let isFromRoot := src.id = "root"
  let fromX := if isLeftBranch then src.x - src.width / 2 else src.x + src.width / 2
  let fromY := if isFromRoot then src.y else src.y + src.height / 2
  let toX := if isLeftBranch then dst.x + dst.width / 2 else dst.x - dst.width / 2
  let toY := dst.y + dst.height / 2
  let dx := |toX - fromX|
  let controlOffset := dx * (1/2)
  let cp1x := if isLeftBranch then fromX - controlOffset else fromX + controlOffset
  let cp2x := if isLeftBranch then toX + controlOffset else toX - controlOffset
  ⟨decide isLeftBranch, fromX, fromY, toX, toY, cp1x, fromY, cp2x, toY⟩

/-! ### Specification-side definitions used to state the claims -/

/-- Append finished child subtrees at the end of a frame's children list. -/
def addKids (f : Frame) (kids : List INodeData) : Frame :=
  ⟨.mk f.node.id f.node.text f.node.level (f.node.children ++ kids) f.node.expanded,
   f.minLevel⟩

/-- Declarative reading of the parser's stack discipline: `chopF fuel l evs`
builds the forest of maximal subtrees out of the prefix of `evs` whose levels
stay strictly above `l`; an event becomes a child of the nearest preceding
event of strictly smaller level, and siblings keep source order.  `fuel`
(any value above `evs.length`) only serves termination. -/
def chopF (fuel : Nat) (l : Nat) (evs : List Ev) : List INodeData × List Ev :=
  match fuel, evs with
  | 0, evs => ([], evs)
  | _ + 1, [] => ([], [])
  | fuel + 1, e :: rest =>
    if l < e.level then
      let kr := chopF fuel e.level rest
      let sr := chopF fuel l kr.2
      (.mk e.id e.text e.level kr.1 false :: sr.1, sr.2)
    else ([], e :: rest)

/-- Fuel-saturated chop (the fuel argument of `chopF` is irrelevant above the
list length). -/
def chop (l : Nat) (evs : List Ev) : List INodeData × List Ev :=
  chopF (evs.length + 1) l evs

/-- The forest of subtrees below the root, per the declarative reading. -/
def chopRoot (evs : List Ev) : List INodeData :=
  (chop 0 evs).1

mutual
/-- Preorder flattening of a tree back into events. -/
def flattenTree : INodeData → List Ev
  | .mk i t l cs _ => ⟨i, t, l⟩ :: flattenForest cs

/-- Preorder flattening of a forest back into events. -/
def flattenForest : List INodeData → List Ev
  | [] => []
  | n :: ns => flattenTree n ++ flattenForest ns
end

/-- `VisibleFrom r n`: every proper ancestor of `n` on its path from `r` is
expanded (`r` itself is included unconditionally). -/
inductive VisibleFrom (r : INodeData) : INodeData → Prop where
  | refl : VisibleFrom r r
  | child {p c : INodeData} : VisibleFrom r p → p.expanded = true →
      c ∈ p.children → VisibleFrom r c

/-- The (base level, first-heading flag) state after scanning a list of
lines. -/
def scanState (st : Nat × Bool) (lines : List String) : Nat × Bool :=
  lines.foldl (fun s l => (lineStep s l).2) st

/-- JS `positions.get(id)` on the position map. -/
def posGet (m : List NodePosition) (k : String) : Option NodePosition :=
  m.find? (fun o => o.id = k)

/-- The horizontal gap `horizontalSpacing × spacingMultiplier × 0.6` that
`layoutChildBranch` puts between a parent of the given level and the anchor
line of its children. -/
def levelGap (hs : ℚ) (lvl : Nat) : ℚ :=
  hs * (if 2 ≤ lvl then 1 else 4/5) * (3/5)

/-- The near horizontal edge of entry `e` lies on the anchor line at distance
`pw/2 + g` from a parent centred at `px`: right-aligned to the left anchor or
left-aligned to the right anchor. -/
def NearEdge (e : NodePosition) (px pw g : ℚ) : Prop :=
  e.x + e.width / 2 = px - (pw / 2 + g) ∨ e.x - e.width / 2 = px + (pw / 2 + g)

/-! ## Theorems -/

/-! ### Frame and stack basics -/

theorem addKids_nil (f : Frame) : addKids f [] = f := by
  obtain ⟨node, ml⟩ := f
  cases node
  simp [addKids, INodeData.id, INodeData.text, INodeData.level, INodeData.children,
    INodeData.expanded]

theorem addKids_append (f : Frame) (k1 k2 : List INodeData) :
    addKids (addKids f k1) k2 = addKids f (k1 ++ k2) := by
  obtain ⟨node, ml⟩ := f
  cases node
  simp [addKids, INodeData.id, INodeData.text, INodeData.level, INodeData.children,
    INodeData.expanded]

theorem addKids_minLevel (f : Frame) (ks : List INodeData) :
    (addKids f ks).minLevel = f.minLevel := rfl

theorem attachChild_eq (c : INodeData) (f : Frame) : attachChild c f = addKids f [c] := rfl

theorem stackBuild_nil (s : List Frame) : stackBuild [] s = s := rfl

theorem stackBuild_cons (e : Ev) (evs : List Ev) (s : List Frame) :
    stackBuild (e :: evs) s = stackBuild evs (processNode e.id e.text e.level s) := rfl

theorem popWhile_stop {lvl : Nat} {f : Frame} (h : f.minLevel < lvl) (rest : List Frame) :
    popWhile lvl (f :: rest) = f :: rest := by
  cases rest with
  | nil => rfl
  | cons g r =>
    show popWhileAux lvl f (g :: r) = f :: g :: r
    rw [popWhileAux, if_neg (Nat.not_le.mpr h)]

theorem popWhile_pop {lvl : Nat} {f : Frame} (h : lvl ≤ f.minLevel) (g : Frame)
    (rest : List Frame) :
    popWhile lvl (f :: g :: rest) = popWhile lvl (attachChild f.node g :: rest) := by
  show popWhileAux lvl f (g :: rest) = popWhileAux lvl (attachChild f.node g) rest
  rw [popWhileAux, if_pos h]

theorem collapseStack_two (f g : Frame) (rest : List Frame) :
    collapseStack (f :: g :: rest) = collapseStack (attachChild f.node g :: rest) := rfl

theorem collapseStack_one (f : Frame) : collapseStack [f] = f.node := rfl

/-! ### Properties of the declarative chop -/

theorem chopF_len (fuel : Nat) : ∀ (l : Nat) (evs : List Ev),
    (chopF fuel l evs).2.length ≤ evs.length := by
  induction fuel with
  | zero => intro l evs; simp [chopF]
  | succ n ih =>
    intro l evs
    cases evs with
    | nil => simp [chopF]
    | cons e rest =>
      rw [chopF]
      by_cases h : l < e.level
      · simp only [if_pos h]
        calc (chopF n l (chopF n e.level rest).2).2.length
            ≤ (chopF n e.level rest).2.length := ih _ _
          _ ≤ rest.length := ih _ _
          _ ≤ (e :: rest).length := by simp
      · simp [if_neg h]

theorem chopF_fuel (f1 : Nat) : ∀ (f2 l : Nat) (evs : List Ev),
    evs.length < f1 → evs.length < f2 → chopF f1 l evs = chopF f2 l evs := by
  induction f1 with
  | zero => intro f2 l evs h1; omega
  | succ n ih =>
    intro f2 l evs h1 h2
    cases evs with
    | nil =>
      cases f2 with
      | zero => omega
      | succ m => rw [chopF, chopF]
    | cons e rest =>
      cases f2 with
      | zero => omega
      | succ m =>
        rw [chopF, chopF]
        by_cases h : l < e.level
        · simp only [if_pos h]
          have hlen : rest.length < n := by simpa using Nat.lt_of_succ_lt_succ h1
          have hlen2 : rest.length < m := by simpa using Nat.lt_of_succ_lt_succ h2
          have e1 : chopF n e.level rest = chopF m e.level rest := ih m _ _ hlen hlen2
          have hr : (chopF n e.level rest).2.length < n :=
            Nat.lt_of_le_of_lt (chopF_len n _ _) hlen
          have hr2 : (chopF n e.level rest).2.length < m :=
            Nat.lt_of_le_of_lt (chopF_len n _ _) hlen2
          have e2 : chopF n l (chopF n e.level rest).2 = chopF m l (chopF n e.level rest).2 :=
            ih m _ _ hr hr2
          rw [← e1, e2]
        · simp [if_neg h]

theorem chopF_nil (l : Nat) : chopF (0 + 1) l [] = ([], []) := by rw [chopF]

theorem chopF_cons_lt {l : Nat} {e : Ev} {rest : List Ev} (h : l < e.level) :
    chopF ((e :: rest).length + 1) l (e :: rest) =
      (INodeData.mk e.id e.text e.level (chopF (rest.length + 1) e.level rest).1 false ::
         (chopF ((chopF (rest.length + 1) e.level rest).2.length + 1) l
           (chopF (rest.length + 1) e.level rest).2).1,
       (chopF ((chopF (rest.length + 1) e.level rest).2.length + 1) l
         (chopF (rest.length + 1) e.level rest).2).2) := by
  have hfe : chopF ((e :: rest).length) e.level rest = chopF (rest.length + 1) e.level rest := by
    simp
  rw [show (e :: rest).length + 1 = rest.length + 1 + 1 from by simp]
  rw [chopF]
  simp only [if_pos h]
  have hlen : (chopF (rest.length + 1) e.level rest).2.length ≤ rest.length :=
    chopF_len _ _ _
  have e2 : chopF (rest.length + 1) l (chopF (rest.length + 1) e.level rest).2 =
      chopF ((chopF (rest.length + 1) e.level rest).2.length + 1) l
        (chopF (rest.length + 1) e.level rest).2 :=
    chopF_fuel _ _ _ _ (by omega) (by omega)
  rw [e2]

theorem chopF_cons_ge {l : Nat} {e : Ev} {rest : List Ev} (h : e.level ≤ l) :
    chopF ((e :: rest).length + 1) l (e :: rest) = ([], e :: rest) := by
  rw [show (e :: rest).length + 1 = rest.length + 1 + 1 from by simp]
  rw [chopF]
  simp [Nat.not_lt.mpr h]

theorem chopF_rem_head (fuel : Nat) : ∀ (l : Nat) (evs : List Ev) (e : Ev) (tl : List Ev),
    evs.length < fuel → (chopF fuel l evs).2 = e :: tl → e.level ≤ l := by
  induction fuel with
  | zero => intro l evs e tl h; omega
  | succ n ih =>
    intro l evs e tl hlen hrem
    cases evs with
    | nil => rw [chopF] at hrem; simp at hrem
    | cons e0 rest =>
      rw [chopF] at hrem
      by_cases h : l < e0.level
      · simp only [if_pos h] at hrem
        have hl1 : rest.length < n := by simpa using Nat.lt_of_succ_lt_succ hlen
        have hl2 : (chopF n e0.level rest).2.length < n :=
          Nat.lt_of_le_of_lt (chopF_len n _ _) hl1
        exact ih l _ e tl hl2 hrem
      · simp only [if_neg h] at hrem
        injection hrem with h1 h2
        rw [← h1]
        omega

theorem chopF_rem_mem (fuel : Nat) : ∀ (l : Nat) (evs : List Ev) (x : Ev),
    x ∈ (chopF fuel l evs).2 → x ∈ evs := by
  induction fuel with
  | zero => intro l evs x h; simpa [chopF] using h
  | succ n ih =>
    intro l evs x h
    cases evs with
    | nil => rw [chopF] at h; simp at h
    | cons e rest =>
      rw [chopF] at h
      by_cases hc : l < e.level
      · simp only [if_pos hc] at h
        exact List.mem_cons_of_mem e (ih _ _ _ (ih _ _ _ h))
      · simpa [if_neg hc] using h

theorem chopF_flatten (fuel : Nat) : ∀ (l : Nat) (evs : List Ev),
    evs.length < fuel →
    flattenForest (chopF fuel l evs).1 ++ (chopF fuel l evs).2 = evs := by
  induction fuel with
  | zero => intro l evs h; omega
  | succ n ih =>
    intro l evs hlen
    cases evs with
    | nil => rw [chopF]; simp [flattenForest]
    | cons e rest =>
      rw [chopF]
      by_cases h : l < e.level
      · simp only [if_pos h]
        have hl1 : rest.length < n := by simpa using Nat.lt_of_succ_lt_succ hlen
        have hl2 : (chopF n e.level rest).2.length < n :=
          Nat.lt_of_le_of_lt (chopF_len n _ _) hl1
        have ih1 := ih e.level rest hl1
        have ih2 := ih l (chopF n e.level rest).2 hl2
        rw [flattenForest, flattenTree]
        calc (⟨e.id, e.text, e.level⟩ :: flattenForest (chopF n e.level rest).1) ++
              flattenForest (chopF n l (chopF n e.level rest).2).1 ++
              (chopF n l (chopF n e.level rest).2).2
            = e :: (flattenForest (chopF n e.level rest).1 ++
                (flattenForest (chopF n l (chopF n e.level rest).2).1 ++
                  (chopF n l (chopF n e.level rest).2).2)) := by simp
          _ = e :: (flattenForest (chopF n e.level rest).1 ++ (chopF n e.level rest).2) := by
                rw [ih2]
          _ = e :: rest := by rw [ih1]
      · simp [if_neg h, flattenForest]

theorem chop_nil (l : Nat) : chop l [] = ([], []) := rfl

theorem chop_cons_lt {l : Nat} {e : Ev} {rest : List Ev} (h : l < e.level) :
    chop l (e :: rest) =
      (INodeData.mk e.id e.text e.level (chop e.level rest).1 false ::
         (chop l (chop e.level rest).2).1,
       (chop l (chop e.level rest).2).2) := by
  rw [chop]
  exact chopF_cons_lt h

theorem chop_cons_ge {l : Nat} {e : Ev} {rest : List Ev} (h : e.level ≤ l) :
    chop l (e :: rest) = ([], e :: rest) := by
  rw [chop]
  exact chopF_cons_ge h

theorem chop_rem_head {l : Nat} {evs : List Ev} {e : Ev} {tl : List Ev}
    (h : (chop l evs).2 = e :: tl) : e.level ≤ l :=
  chopF_rem_head _ _ _ _ _ (by omega) h

theorem chop_rem_mem {l : Nat} {evs : List Ev} {x : Ev} (h : x ∈ (chop l evs).2) :
    x ∈ evs :=
  chopF_rem_mem _ _ _ _ h

theorem chop_len {l : Nat} {evs : List Ev} : (chop l evs).2.length ≤ evs.length :=
  chopF_len _ _ _

theorem chop_flatten (l : Nat) (evs : List Ev) :
    flattenForest (chop l evs).1 ++ (chop l evs).2 = evs :=
  chopF_flatten _ _ _ (by omega)

/-! ### The stack build agrees with the declarative chop -/

theorem collapse_stackBuild (n : Nat) : ∀ (evs : List Ev), evs.length ≤ n →
    ∀ (f : Frame) (rest : List Frame),
    collapseStack (stackBuild evs (f :: rest)) =
      collapseStack
        (stackBuild (chop f.minLevel evs).2
          (addKids f (chop f.minLevel evs).1 :: rest)) := by
  induction n with
  | zero =>
    intro evs h f rest
    have hnil : evs = [] := List.length_eq_zero.mp (Nat.le_zero.mp h)
    subst hnil
    rw [chop_nil]
    simp [stackBuild_nil, addKids_nil]
  | succ n ih =>
    intro evs hlen f rest
    cases evs with
    | nil =>
      rw [chop_nil]
      simp [stackBuild_nil, addKids_nil]
    | cons e tl =>
      by_cases hc : f.minLevel < e.level
      · -- the event is pushed above `f`
        have hpush : processNode e.id e.text e.level (f :: rest) =
            (⟨.mk e.id e.text e.level [] false, e.level⟩ : Frame) :: f :: rest := by
          rw [processNode, popWhile_stop hc]
        rw [stackBuild_cons, hpush]
        have htl : tl.length ≤ n := by
          simp only [List.length_cons] at hlen
          omega
        have h1 := ih tl htl (⟨.mk e.id e.text e.level [] false, e.level⟩ : Frame) (f :: rest)
        rw [show (⟨.mk e.id e.text e.level [] false, e.level⟩ : Frame).minLevel = e.level
          from rfl] at h1
        have hnode : addKids (⟨.mk e.id e.text e.level [] false, e.level⟩ : Frame)
            (chop e.level tl).1 =
            (⟨.mk e.id e.text e.level (chop e.level tl).1 false, e.level⟩ : Frame) := by
          simp [addKids, INodeData.id, INodeData.text, INodeData.level, INodeData.children,
            INodeData.expanded]
        rw [hnode] at h1
        rw [h1, chop_cons_lt hc]
        cases hrem : (chop e.level tl).2 with
        | nil =>
          simp only [chop_nil, stackBuild_nil]
          rw [collapseStack_two, attachChild_eq]
        | cons e1 tl1 =>
          have hle : e1.level ≤ e.level := chop_rem_head hrem
          have hstep : processNode e1.id e1.text e1.level
              ((⟨.mk e.id e.text e.level (chop e.level tl).1 false, e.level⟩ : Frame) ::
                f :: rest) =
              processNode e1.id e1.text e1.level
                (addKids f [.mk e.id e.text e.level (chop e.level tl).1 false] :: rest) := by
            rw [processNode, processNode,
              popWhile_pop (show e1.level ≤
                (⟨.mk e.id e.text e.level (chop e.level tl).1 false, e.level⟩ : Frame).minLevel
                from hle), attachChild_eq]
          rw [stackBuild_cons, hstep, ← stackBuild_cons]
          have hlen2 : (e1 :: tl1).length ≤ n := by
            have hck := @chop_len e.level tl
            rw [hrem] at hck
            simp only [List.length_cons] at hck hlen ⊢
            omega
          have h2 := ih (e1 :: tl1) hlen2
            (addKids f [.mk e.id e.text e.level (chop e.level tl).1 false]) rest
          rw [addKids_minLevel] at h2
          rw [h2, addKids_append]
          rfl
      · have hge : e.level ≤ f.minLevel := Nat.not_lt.mp hc
        rw [chop_cons_ge hge, addKids_nil]

/-! ### The line loop factors through its event sequence -/

theorem foldl_parseLine (lines : List String) : ∀ (st : PState),
    (lines.foldl parseLine st).stack =
      stackBuild (withIds st.counter (eventsOf (st.base, st.fh) lines)) st.stack
    ∧ (lines.foldl parseLine st).base = (scanState (st.base, st.fh) lines).1
    ∧ (lines.foldl parseLine st).fh = (scanState (st.base, st.fh) lines).2 := by
  induction lines with
  | nil => intro st; exact ⟨rfl, rfl, rfl⟩
  | cons l ls ih =>
    intro st
    rcases hls : lineStep (st.base, st.fh) l with ⟨ev, bf⟩
    cases ev with
    | some e =>
      obtain ⟨t, lv⟩ := e
      have hp : parseLine st l =
          { stack := processNode ("node-" ++ toString st.counter) t lv st.stack
            counter := st.counter + 1, base := bf.1, fh := bf.2 } := by
        simp only [parseLine, hls]
      have hev : eventsOf (st.base, st.fh) (l :: ls) = (t, lv) :: eventsOf bf ls := by
        simp only [eventsOf, hls]
      have hsc : scanState (st.base, st.fh) (l :: ls) = scanState bf ls := by
        simp only [scanState, List.foldl_cons, hls]
      obtain ⟨ihs, ihb, ihf⟩ := ih (parseLine st l)
      rw [List.foldl_cons]
      refine ⟨?_, ?_, ?_⟩
      · rw [ihs, hev, hp]
        rfl
      · rw [ihb, hp, hsc]
      · rw [ihf, hp, hsc]
    | none =>
      have hp : parseLine st l = { st with base := bf.1, fh := bf.2 } := by
        simp only [parseLine, hls]
      have hev : eventsOf (st.base, st.fh) (l :: ls) = eventsOf bf ls := by
        simp only [eventsOf, hls]
      have hsc : scanState (st.base, st.fh) (l :: ls) = scanState bf ls := by
        simp only [scanState, List.foldl_cons, hls]
      obtain ⟨ihs, ihb, ihf⟩ := ih (parseLine st l)
      rw [List.foldl_cons]
      refine ⟨?_, ?_, ?_⟩
      · rw [ihs, hev, hp]
      · rw [ihb, hp, hsc]
      · rw [ihf, hp, hsc]

/-! ### Every emitted event has level at least 1 -/

theorem headingParse_bounds {t : List Char} {n : Nat} {s : String}
    (h : headingParse t = some (n, s)) : 1 ≤ n ∧ n ≤ 6 := by
  unfold headingParse at h
  by_cases hb : 1 ≤ (t.takeWhile (fun c => c == '#')).length ∧
      (t.takeWhile (fun c => c == '#')).length ≤ 6
  · cases hd : t.drop (t.takeWhile (fun c => c == '#')).length with
    | nil => rw [if_pos hb, hd] at h; simp at h
    | cons c r =>
      rw [if_pos hb, hd] at h
      dsimp only at h
      split at h
      · injection h with h1
        obtain ⟨rfl, rfl⟩ : (t.takeWhile (fun c => c == '#')).length = n ∧ _ := by
          injection h1 with a b
          exact ⟨a, b⟩
        exact hb
      · exact absurd h (by simp)
  · rw [if_neg hb] at h
    exact absurd h (by simp)

theorem lineStep_level {st : Nat × Bool} {line : String} {e : String × Nat}
    {st1 : Nat × Bool} (h : lineStep st line = (some e, st1)) : 1 ≤ e.2 := by
  unfold lineStep at h
  by_cases ht : trimList line.toList = []
  · rw [if_pos ht] at h; simp at h
  · rw [if_neg ht] at h
    cases hh : headingParse (trimList line.toList) with
    | some p =>
      obtain ⟨lvl, text⟩ := p
      rw [hh] at h
      simp only at h
      by_cases htx : text ≠ ""
      · rw [if_pos htx] at h
        by_cases hfh : st.2
        · rw [if_pos hfh] at h; simp at h
        · rw [if_neg hfh] at h
          injection h with h1 h2
          injection h1 with h1
          rw [← h1]
          exact (headingParse_bounds hh).1
      · rw [if_neg htx] at h; simp at h
    | none =>
      rw [hh] at h
      simp only at h
      cases hl : listParse (trimList line.toList) with
      | some text =>
        rw [hl] at h
        simp only at h
        by_cases htx : text ≠ ""
        · rw [if_pos htx] at h
          injection h with h1 h2
          injection h1 with h1
          rw [← h1]
          omega
        · rw [if_neg htx] at h; simp at h
      | none =>
        rw [hl] at h
        simp only at h
        cases htl : trimList line.toList with
        | nil => exact absurd htl ht
        | cons c cs =>
          rw [htl] at h
          simp only at h
          by_cases hcond : c ≠ '#' ∧ c ≠ '-' ∧ c ≠ '*' ∧ 0 < calculateIndentLevel line
          · rw [if_pos hcond] at h
            injection h with h1 h2
            injection h1 with h1
            rw [← h1]
            omega
          · rw [if_neg hcond] at h; simp at h

theorem eventsOf_level (lines : List String) : ∀ (st : Nat × Bool) (p : String × Nat),
    p ∈ eventsOf st lines → 1 ≤ p.2 := by
  induction lines with
  | nil => intro st p hp; simp [eventsOf] at hp
  | cons l ls ih =>
    intro st p hp
    rcases hls : lineStep st l with ⟨ev, st1⟩
    cases ev with
    | some e =>
      rw [eventsOf] at hp
      rw [hls] at hp
      simp only [List.mem_cons] at hp
      cases hp with
      | inl he => rw [he]; exact lineStep_level hls
      | inr he => exact ih st1 p he
    | none =>
      rw [eventsOf] at hp
      rw [hls] at hp
      exact ih st1 p hp

theorem withIds_mem {evs : List (String × Nat)} : ∀ {c : Nat} {e : Ev},
    e ∈ withIds c evs → ∃ p ∈ evs, e.text = p.1 ∧ e.level = p.2 := by
  induction evs with
  | nil => intro c e h; simp [withIds] at h
  | cons p ps ih =>
    intro c e h
    rw [withIds] at h
    simp only [List.mem_cons] at h
    cases h with
    | inl he => exact ⟨p, List.mem_cons_self _ _, by rw [he], by rw [he]⟩
    | inr he =>
      obtain ⟨q, hq, h1, h2⟩ := ih he
      exact ⟨q, List.mem_cons_of_mem _ hq, h1, h2⟩

theorem parseEvents_level {markdown : String} {e : Ev} (h : e ∈ parseEvents markdown) :
    1 ≤ e.level := by
  obtain ⟨p, hp, _, h2⟩ := withIds_mem h
  rw [h2]
  exact eventsOf_level _ _ _ hp

theorem chop0_rem_nil {evs : List Ev} (h : ∀ e ∈ evs, 1 ≤ e.level) :
    (chop 0 evs).2 = [] := by
  cases hr : (chop 0 evs).2 with
  | nil => rfl
  | cons e tl =>
    have h0 : e.level ≤ 0 := chop_rem_head hr
    have h1 : e ∈ evs := chop_rem_mem (hr ▸ List.mem_cons_self e tl)
    have := h e h1
    omega

theorem mem_flattenForest {d : Ev} : ∀ {ns : List INodeData},
    d ∈ flattenForest ns ↔ ∃ k ∈ ns, d ∈ flattenTree k := by
  intro ns
  induction ns with
  | nil => simp [flattenForest]
  | cons k ks ih =>
    rw [flattenForest, List.mem_append, ih]
    constructor
    · rintro (h | ⟨k2, hk2, hd⟩)
      · exact ⟨k, List.mem_cons_self _ _, h⟩
      · exact ⟨k2, List.mem_cons_of_mem _ hk2, hd⟩
    · rintro ⟨k2, hk2, hd⟩
      rcases List.mem_cons.mp hk2 with h | h
      · exact Or.inl (h ▸ hd)
      · exact Or.inr ⟨k2, h, hd⟩

theorem mem_flattenTree {d : Ev} {k : INodeData} :
    d ∈ flattenTree k ↔ (d = ⟨k.id, k.text, k.level⟩ ∨ d ∈ flattenForest k.children) := by
  cases k
  rw [flattenTree]
  simp [INodeData.id, INodeData.text, INodeData.level, INodeData.children]

theorem chopF_forest_levels (fuel : Nat) : ∀ (l : Nat) (evs : List Ev) (n : INodeData),
    n ∈ (chopF fuel l evs).1 →
    l < n.level ∧ ∀ d ∈ flattenForest n.children, n.level < d.level := by
  induction fuel with
  | zero => intro l evs n h; simp [chopF] at h
  | succ m ih =>
    intro l evs n h
    cases evs with
    | nil => rw [chopF] at h; simp at h
    | cons e rest =>
      rw [chopF] at h
      by_cases hc : l < e.level
      · simp only [if_pos hc] at h
        rw [List.mem_cons] at h
        cases h with
        | inl hn =>
          subst hn
          refine ⟨by simpa [INodeData.level] using hc, ?_⟩
          intro d hd
          simp only [INodeData.children, INodeData.level] at *
          obtain ⟨k, hk, hdk⟩ := mem_flattenForest.mp hd
          obtain ⟨hk1, hk2⟩ := ih e.level rest k hk
          rcases mem_flattenTree.mp hdk with h | h
          · rw [h]; exact hk1
          · exact Nat.lt_trans hk1 (hk2 d h)
        | inr hn => exact ih l _ n hn
      · simp only [if_neg hc] at h
        simp at h

theorem chop_forest_levels {l : Nat} {evs : List Ev} {n : INodeData}
    (h : n ∈ (chop l evs).1) :
    l < n.level ∧ ∀ d ∈ flattenForest n.children, n.level < d.level :=
  chopF_forest_levels _ _ _ _ h

theorem withIds_mem_id {evs : List (String × Nat)} : ∀ {c : Nat} {e : Ev},
    e ∈ withIds c evs → ∃ k : Nat, e.id = "node-" ++ toString k := by
  induction evs with
  | nil => intro c e h; simp [withIds] at h
  | cons p ps ih =>
    intro c e h
    rw [withIds] at h
    rcases List.mem_cons.mp h with h | h
    · subst h
      exact ⟨c, rfl⟩
    · exact ih h

theorem withIds_length (evs : List (String × Nat)) : ∀ (c : Nat),
    (withIds c evs).length = evs.length := by
  induction evs with
  | nil => intro c; rfl
  | cons p ps ih => intro c; rw [withIds]; simp [ih]

theorem withIds_get (evs : List (String × Nat)) : ∀ (c i : Nat), i < evs.length →
    ((withIds c evs).get? i).map Ev.id = some ("node-" ++ toString (c + i)) := by
  induction evs with
  | nil => intro c i h; simp at h
  | cons p ps ih =>
    intro c i h
    obtain ⟨t0, l0⟩ := p
    cases i with
    | zero => rfl
    | succ j =>
      rw [withIds]
      rw [List.get?_cons_succ]
      have := ih (c + 1) j (by simpa using Nat.lt_of_succ_lt_succ h)
      rw [this]
      have harith : c + 1 + j = c + (j + 1) := by omega
      rw [harith]

theorem node_id_ne_root (s : String) : "node-" ++ s ≠ "root" := by
  intro h
  have h1 : ("node-" ++ s).length = ("root" : String).length := by rw [h]
  rw [String.length_append] at h1
  have h2 : ("node-" : String).length = 5 := rfl
  have h3 : ("root" : String).length = 4 := rfl
  omega

/-! ### Heading lines: inversion and emission -/

theorem headingParse_nil : headingParse [] = none := rfl

theorem effHeading_inv {line : String} {l : Nat} {t : String}
    (h : effHeading line = some (l, t)) :
    headingParse (trimList line.toList) = some (l, t) ∧ t ≠ "" := by
  unfold effHeading at h
  cases hh : headingParse (trimList line.toList) with
  | none => rw [hh] at h; simp at h
  | some p =>
    obtain ⟨n, s⟩ := p
    rw [hh] at h
    simp only at h
    by_cases hs : s ≠ ""
    · rw [if_pos hs] at h
      injection h with h1
      injection h1 with h1 h2
      subst h1; subst h2
      exact ⟨rfl, hs⟩
    · rw [if_neg hs] at h
      simp at h

theorem lineStep_heading_emit {line : String} {l : Nat} {t : String}
    (hp : headingParse (trimList line.toList) = some (l, t)) (ht : t ≠ "") (b : Nat) :
    lineStep (b, false) line = (some (t, l), (l, false))
    ∧ lineStep (b, true) line = (none, (l, false)) := by
  have hne : trimList line.toList ≠ [] := by
    intro h0
    rw [h0, headingParse_nil] at hp
    exact absurd hp (by simp)
  have hfix : ∀ (st : Nat × Bool), lineStep st line =
      (if st.2 then (none, (l, false)) else (some (t, l), (l, false))) := by
    intro st
    unfold lineStep
    rw [if_neg hne, hp]
    dsimp only
    rw [if_pos ht]
  rw [hfix (b, false), hfix (b, true)]
  exact ⟨rfl, rfl⟩

theorem lineStep_fh (b : Nat) (fh : Bool) (line : String) :
    (lineStep (b, fh) line).2.2 = (fh && (effHeading line).isNone) := by
  simp only [lineStep, effHeading]
  by_cases ht : trimList line.toList = []
  · rw [ht, headingParse_nil]
    simp
  · simp only [if_neg ht]
    cases hh : headingParse (trimList line.toList) with
    | some p =>
      obtain ⟨lvl, text⟩ := p
      simp only
      by_cases htx : text ≠ ""
      · simp only [if_pos htx]
        cases fh <;> simp
      · simp only [if_neg htx]
        simp
    | none =>
      simp only
      cases hl : listParse (trimList line.toList) with
      | some text =>
        by_cases htx : text ≠ ""
        · simp [if_pos htx]
        · simp [if_neg htx]
      | none =>
        cases htl : trimList line.toList with
        | nil => exact absurd htl ht
        | cons c cs =>
          by_cases hcond : c ≠ '#' ∧ c ≠ '-' ∧ c ≠ '*' ∧ 0 < calculateIndentLevel line
          · simp [if_pos hcond]
          · simp [if_neg hcond]

theorem scanState_fh (lines : List String) : ∀ (b : Nat) (fh : Bool),
    (scanState (b, fh) lines).2 = (fh && lines.all (fun l => (effHeading l).isNone)) := by
  induction lines with
  | nil => intro b fh; simp [scanState]
  | cons l ls ih =>
    intro b fh
    have hstep : scanState (b, fh) (l :: ls) = scanState (lineStep (b, fh) l).2 ls := by
      simp only [scanState, List.foldl_cons]
    rw [hstep]
    rcases hp : (lineStep (b, fh) l).2 with ⟨b1, f1⟩
    have hf1 : f1 = (fh && (effHeading l).isNone) := by
      have hfh := lineStep_fh b fh l
      rw [hp] at hfh
      exact hfh
    rw [ih b1 f1, hf1]
    simp [Bool.and_assoc]

/-! ### The parser equals its declarative description -/

theorem parseMarkdown_eq (markdown : String) :
    parseMarkdown markdown =
      .mk "root" (rootLabel markdown) 0 (chopRoot (parseEvents markdown)) true := by
  show collapseStack
      (List.foldl parseLine (initState (findRootText (splitLines markdown)))
        (splitLines markdown)).stack = _
  obtain ⟨hs, _, _⟩ :=
    foldl_parseLine (splitLines markdown) (initState (findRootText (splitLines markdown)))
  rw [hs]
  have hinit : (initState (findRootText (splitLines markdown))).stack =
      [⟨.mk "root" (findRootText (splitLines markdown)) 0 [] true, 0⟩] := rfl
  rw [hinit]
  have hevs : withIds (initState (findRootText (splitLines markdown))).counter
      (eventsOf ((initState (findRootText (splitLines markdown))).base,
        (initState (findRootText (splitLines markdown))).fh) (splitLines markdown)) =
      parseEvents markdown := rfl
  rw [hevs]
  have hml := collapse_stackBuild (parseEvents markdown).length (parseEvents markdown)
    (Nat.le_refl _) ⟨.mk "root" (findRootText (splitLines markdown)) 0 [] true, 0⟩ []
  rw [show (⟨.mk "root" (findRootText (splitLines markdown)) 0 [] true, 0⟩ : Frame).minLevel = 0
    from rfl] at hml
  have hrem : (chop 0 (parseEvents markdown)).2 = [] := by
    cases hr : (chop 0 (parseEvents markdown)).2 with
    | nil => rfl
    | cons e tl =>
      have h0 : e.level ≤ 0 := chop_rem_head hr
      have h1 : e ∈ parseEvents markdown := chop_rem_mem (hr ▸ List.mem_cons_self e tl)
      have := parseEvents_level h1
      omega
  rw [hrem] at hml
  rw [hml, stackBuild_nil, collapseStack_one]
  show (addKids _ _).node = _
  simp [addKids, INodeData.id, INodeData.text, INodeData.level, INodeData.children,
    INodeData.expanded, chopRoot, rootLabel]


/-! ### Dimension estimator -/

theorem extraHeight_mono {a b : Nat} (h : a ≤ b) : extraHeight a ≤ extraHeight b := by
  unfold extraHeight
  by_cases h1 : 180 < a
  · by_cases h2 : a ≤ 350
    · have h3 : 180 < b := by omega
      by_cases h4 : b ≤ 350
      · simp only [if_pos h1, if_pos h2, if_pos h3, if_pos h4]
        exact Nat.div_le_div_right (by omega)
      · simp only [if_pos h1, if_pos h2, if_pos h3, if_neg h4]
        have e1 : (a - 180) / 12 ≤ 170 / 12 := Nat.div_le_div_right (by omega)
        omega
    · have h3 : 180 < b := by omega
      have h4 : ¬ b ≤ 350 := by omega
      simp only [if_pos h1, if_neg h2, if_pos h3, if_neg h4]
      have e1 : (a - 350) / 10 ≤ (b - 350) / 10 := Nat.div_le_div_right (by omega)
      omega
  · simp only [if_neg h1]
    exact Nat.zero_le _

/-- C9: among non-root nodes of equal depth, the estimated height computed by
`calculateNodeDimensions` is monotone in the estimated width: if node `a`'s
width exceeds node `b`'s, `a`'s height is at least `b`'s (the extra-height
term is non-decreasing across the 180- and 350-unit thresholds). -/
theorem dimension_height_monotone (a b : INodeData)
    (ha : a.id ≠ "root") (hb : b.id ≠ "root") (hlvl : a.level = b.level)
    (hw : (nodeDimension b).1 < (nodeDimension a).1) :
    (nodeDimension b).2 ≤ (nodeDimension a).2 := by
  unfold nodeDimension estimatedHeight at *
  simp only [if_neg ha, if_neg hb, hlvl] at *
  exact Nat.add_le_add_left (extraHeight_mono (Nat.le_of_lt hw)) _

/-- Witness for C9 at two concrete sibling-depth nodes. -/
theorem dimension_height_monotone_witness :
    ((INodeData.mk "node-0" "a very long english label indeed, long" 1 [] false).id ≠ "root")
    ∧ (nodeDimension (.mk "node-1" "ab" 1 [] false)).1
        < (nodeDimension (.mk "node-0" "a very long english label indeed, long" 1 [] false)).1
    ∧ (nodeDimension (.mk "node-1" "ab" 1 [] false)).2
        ≤ (nodeDimension (.mk "node-0" "a very long english label indeed, long" 1 [] false)).2 :=
  ⟨by decide, by decide,
   dimension_height_monotone _ _ (by decide) (by decide) (by decide) (by decide)⟩

/-! ### Edge path generator -/

/-- C7 (amended): `generateLinkPath` classifies a left branch exactly when
`to.x < from.x`, starts the curve on the parent's horizontal edge nearest the
child at vertical coordinate `from.y + from.height/2` (at `from.y` itself when
the parent is the root) — under the position model of this file, where `y` is
the box's vertical centre, that is the parent's bottom edge, not its vertical
centre — ends it on the child's horizontal edge nearest the parent at
`to.y + to.height/2`, and offsets both control points horizontally from their
endpoints by half the horizontal distance between the endpoints. -/
theorem generateLinkPath_geometry (src dst : NodePosition) :
    (generateLinkPath src dst).isLeftBranch = decide (dst.x < src.x)
    ∧ (generateLinkPath src dst).fromX =
        (if dst.x < src.x then src.x - src.width / 2 else src.x + src.width / 2)
    ∧ (generateLinkPath src dst).fromY =
        (if src.id = "root" then src.y else src.y + src.height / 2)
    ∧ (generateLinkPath src dst).toX =
        (if dst.x < src.x then dst.x + dst.width / 2 else dst.x - dst.width / 2)
    ∧ (generateLinkPath src dst).toY = dst.y + dst.height / 2
    ∧ (generateLinkPath src dst).cp1y = (generateLinkPath src dst).fromY
    ∧ (generateLinkPath src dst).cp2y = (generateLinkPath src dst).toY
    ∧ |(generateLinkPath src dst).cp1x - (generateLinkPath src dst).fromX| =
        |(generateLinkPath src dst).toX - (generateLinkPath src dst).fromX| / 2
    ∧ |(generateLinkPath src dst).cp2x - (generateLinkPath src dst).toX| =
        |(generateLinkPath src dst).toX - (generateLinkPath src dst).fromX| / 2 := by
  have k1 : ∀ X Y : ℚ, |X + |Y| * (1/2) - X| = |Y| / 2 := by
    intro X Y
    rw [show X + |Y| * (1/2) - X = |Y| * (1/2) from by ring,
        abs_of_nonneg (by positivity)]
    ring
  have k2 : ∀ X Y : ℚ, |X - |Y| * (1/2) - X| = |Y| / 2 := by
    intro X Y
    rw [show X - |Y| * (1/2) - X = -(|Y| * (1/2)) from by ring, abs_neg,
        abs_of_nonneg (by positivity)]
    ring
  by_cases hL : dst.x < src.x
  · refine ⟨?_, ?_, ?_, ?_, ?_, ?_, ?_, ?_, ?_⟩ <;>
      simp only [generateLinkPath, if_pos hL, decide_eq_true_eq]
    · exact k2 _ _
    · exact k1 _ _
  · refine ⟨?_, ?_, ?_, ?_, ?_, ?_, ?_, ?_, ?_⟩ <;>
      simp only [generateLinkPath, if_neg hL, decide_eq_true_eq]
    · exact k1 _ _
    · exact k2 _ _

/-- Counterexample to C7 as stated: for a concrete non-root parent the curve
does not start at the parent's vertical centre (`from.y`, since positions hold
box centres), nor does it end at the child's vertical centre — both anchors
sit half a box height lower. -/
theorem generateLinkPath_center_counterexample :
    (generateLinkPath ⟨"p", "T", 0, 0, 100, 32, 1, true, true, none⟩
        ⟨"c", "A", 300, 0, 60, 36, 2, false, false, some "p"⟩).fromY ≠
      (0 : ℚ)
    ∧ (generateLinkPath ⟨"p", "T", 0, 0, 100, 32, 1, true, true, none⟩
        ⟨"c", "A", 300, 0, 60, 36, 2, false, false, some "p"⟩).toY ≠
      (0 : ℚ) := by
  constructor <;>
    · simp only [generateLinkPath, if_neg (show ¬("p" = "root") from by decide)]
      norm_num

/-! ### Parser claims -/

/-- C4: the parser's stack discipline (pop while the top's pushed level is ≥
the new level — handling level jumps of more than one — attach the new node as
the last child of the frame then on top, push the new frame) produces exactly
the declarative tree `chopRoot`, in which every event's parent is the nearest
preceding event of strictly smaller level (the root otherwise) and sibling
lists keep source order; moreover the preorder flattening of that tree is
exactly the emission sequence, so sibling order equals source-line order. -/
theorem processNode_stack_discipline (markdown : String) :
    parseMarkdown markdown =
      .mk "root" (rootLabel markdown) 0 (chopRoot (parseEvents markdown)) true
    ∧ flattenForest (chopRoot (parseEvents markdown)) = parseEvents markdown := by
  refine ⟨parseMarkdown_eq markdown, ?_⟩
  have hflat := chop_flatten 0 (parseEvents markdown)
  rw [chop0_rem_nil (fun e he => parseEvents_level he)] at hflat
  simpa [chopRoot] using hflat

/-- C3: when the input has a heading line (with non-empty processed text), the
root's label is that first heading's text with the trailing decorative dash
stripped (`stripTrailingDash`, applied inside `effHeading`); a heading line
emits no node exactly while the first-heading flag is set, and emits a node at
level equal to its marker count (1–6) afterwards; and the first-heading flag
stays set precisely until the first effective heading line is scanned. -/
theorem first_heading_root (markdown : String) (lvl : Nat) (txt : String)
    (hfirst : (splitLines markdown).findSome? effHeading = some (lvl, txt)) :
    (parseMarkdown markdown).text = txt
    ∧ (∀ (b l : Nat) (line : String) (t : String), effHeading line = some (l, t) →
        1 ≤ l ∧ l ≤ 6
        ∧ (lineStep (b, false) line).1 = some (t, l)
        ∧ (lineStep (b, true) line).1 = none)
    ∧ (∀ (lines : List String) (b : Nat),
        (scanState (b, true) lines).2 = lines.all (fun l2 => (effHeading l2).isNone)) := by
  refine ⟨?_, ?_, ?_⟩
  · rw [parseMarkdown_eq markdown]
    show rootLabel markdown = txt
    rw [rootLabel, findRootText, hfirst]
  · intro b l line t h
    obtain ⟨hp, ht⟩ := effHeading_inv h
    obtain ⟨h1, h2⟩ := lineStep_heading_emit hp ht b
    exact ⟨(headingParse_bounds hp).1, (headingParse_bounds hp).2, by rw [h1], by rw [h2]⟩
  · intro lines b
    rw [scanState_fh lines b true]
    simp

/-- Witness for C3 on a concrete two-heading document. -/
theorem first_heading_root_witness :
    (parseMarkdown "# Hi -\n## A").text = "Hi" :=
  (first_heading_root "# Hi -\n## A" 1 "Hi" rfl).1

/-- C6: a non-blank line that does not begin with a heading or bullet marker
but has positive indentation emits exactly one node, with text the trimmed
line and level the current base level plus the indentation level; the
indentation level is (leading tabs × 2) + ⌊leading non-tab whitespace / 2⌋. -/
theorem bare_indented_line (b : Nat) (fh : Bool) (line : String) (c : Char)
    (cs : List Char) (htrim : trimList line.toList = c :: cs)
    (h1 : c ≠ '#') (h2 : c ≠ '-') (h3 : c ≠ '*')
    (hi : 0 < calculateIndentLevel line) :
    (lineStep (b, fh) line).1 = some (String.mk (c :: cs), b + calculateIndentLevel line)
    ∧ calculateIndentLevel line =
        ((line.toList.takeWhile isJsSpace).filter (fun ch => ch == '\t')).length * 2 +
        ((line.toList.takeWhile isJsSpace).filter (fun ch => ch != '\t')).length / 2 := by
  constructor
  · have hcn : (c == '#') = false := by simp [h1]
    have hh : headingParse (c :: cs) = none := by
      have htw : (c :: cs).takeWhile (fun x => x == '#') = [] := by
        rw [List.takeWhile_cons, hcn]
        rfl
      simp [headingParse, htw]
    have hl : listParse (c :: cs) = none := by
      cases cs with
      | nil => rfl
      | cons c2 r => simp [listParse, h2, h3]
    have hfix : lineStep (b, fh) line =
        (some (String.mk (c :: cs), b + calculateIndentLevel line), (b, fh)) := by
      unfold lineStep
      rw [htrim]
      rw [if_neg (by simp), hh, hl]
      dsimp only
      rw [if_pos ⟨h1, h2, h3, hi⟩]
    rw [hfix]
  · rfl

/-- Witness for C6 on a concrete indented line. -/
theorem bare_indented_line_witness :
    (lineStep (3, true) "  hello").1 = some ("hello", 4) := by
  have h := (bare_indented_line 3 true "  hello" 'h' "ello".toList (by rfl)
    (by decide) (by decide) (by decide) (by decide)).1
  rw [h]
  rfl

/-- C8: `parseMarkdown` is a total function (it is defined for every input
string — the TS code throws on no branch); the empty string yields the default
single-node tree, an input with no effective heading line keeps the default
root label, and every level-1 emission (in particular every unindented
top-level list item, whose level is 0 + 0 + 1) becomes a direct child of the
root. -/
theorem parseMarkdown_degrades (markdown : String) :
    parseMarkdown "" = .mk "root" "中心主题" 0 [] true
    ∧ ((splitLines markdown).findSome? effHeading = none →
        (parseMarkdown markdown).text = "中心主题")
    ∧ (∀ e : Ev, e ∈ parseEvents markdown → e.level = 1 →
        ∃ c ∈ (parseMarkdown markdown).children,
          c.id = e.id ∧ c.text = e.text ∧ c.level = 1) := by
  refine ⟨rfl, ?_, ?_⟩
  · intro hnone
    rw [parseMarkdown_eq markdown]
    show rootLabel markdown = _
    rw [rootLabel, findRootText, hnone]
  · intro e he hlvl
    have hflat : flattenForest (chopRoot (parseEvents markdown)) = parseEvents markdown := by
      have hf := chop_flatten 0 (parseEvents markdown)
      rw [chop0_rem_nil (fun x hx => parseEvents_level hx)] at hf
      simpa [chopRoot] using hf
    have hmem : e ∈ flattenForest (chopRoot (parseEvents markdown)) := by
      rw [hflat]; exact he
    obtain ⟨k, hk, hdk⟩ := mem_flattenForest.mp hmem
    have hklev := @chop_forest_levels 0 (parseEvents markdown) k
      (by simpa [chopRoot] using hk)
    rcases mem_flattenTree.mp hdk with h | h
    · refine ⟨k, ?_, ?_, ?_, ?_⟩
      · rw [parseMarkdown_eq markdown]
        show k ∈ chopRoot (parseEvents markdown)
        exact hk
      · rw [h]
      · rw [h]
      · rw [h] at hlvl
        exact hlvl
    · exact absurd hlvl (by
        have := hklev.2 e h
        omega)

/-- Witness for C8 on a concrete list-only document. -/
theorem parseMarkdown_degrades_witness :
    (parseMarkdown "- a").text = "中心主题"
    ∧ ∃ c ∈ (parseMarkdown "- a").children,
        c.id = "node-0" ∧ c.text = "a" ∧ c.level = 1 :=
  ⟨(parseMarkdown_degrades "- a").2.1 rfl,
   (parseMarkdown_degrades "- a").2.2 ⟨"node-0", "a", 1⟩ (by decide) rfl⟩

/-- C10: `generateLinkPath` applies the root-specific vertical anchor exactly
when the parent's id is the literal string "root"; `parseMarkdown` gives the
returned root the id "root" and assigns every emitted node the id `node-N`
with `N` counting up from 0 in emission order (and the preorder flattening of
the tree is the emission sequence, so no other node ever has the id "root"). -/
theorem root_id_convention (markdown : String) :
    (parseMarkdown markdown).id = "root"
    ∧ flattenForest (chopRoot (parseEvents markdown)) = parseEvents markdown
    ∧ (∀ i : Nat, i < (parseEvents markdown).length →
        ((parseEvents markdown).get? i).map Ev.id = some ("node-" ++ toString i))
    ∧ (∀ e : Ev, e ∈ parseEvents markdown → e.id ≠ "root")
    ∧ (∀ src dst : NodePosition, (generateLinkPath src dst).fromY =
        (if src.id = "root" then src.y else src.y + src.height / 2)) := by
  refine ⟨?_, ?_, ?_, ?_, ?_⟩
  · rw [parseMarkdown_eq markdown]
    rfl
  · have hf := chop_flatten 0 (parseEvents markdown)
    rw [chop0_rem_nil (fun x hx => parseEvents_level hx)] at hf
    simpa [chopRoot] using hf
  · intro i hi
    have hlen : i < (eventsOf (0, true) (splitLines markdown)).length := by
      have := withIds_length (eventsOf (0, true) (splitLines markdown)) 0
      rw [parseEvents] at hi
      omega
    have := withIds_get (eventsOf (0, true) (splitLines markdown)) 0 i hlen
    rw [parseEvents]
    simpa using this
  · intro e he
    obtain ⟨k, hk⟩ := withIds_mem_id he
    rw [hk]
    exact node_id_ne_root _
  · intro src dst
    rfl

/-- Witness for C10 on a concrete document and a concrete index. -/
theorem root_id_convention_witness :
    ((parseEvents "# Hi\n## A\n- x").get? 1).map Ev.id = some ("node-" ++ toString 1) :=
  (root_id_convention "# Hi\n## A\n- x").2.2.1 1 (by decide)

/-! ### Position-map (JS Map) lemmas -/

theorem mem_ids_mset {m : List NodePosition} {e : NodePosition} {k : String} :
    k ∈ (mset m e).map (fun p => p.id) ↔ k ∈ m.map (fun p => p.id) ∨ k = e.id := by
  unfold mset
  by_cases hany : m.any (fun o => o.id = e.id)
  · rw [if_pos hany]
    have hmem : e.id ∈ m.map (fun p => p.id) := by
      obtain ⟨o, ho, hoe⟩ := List.any_eq_true.mp hany
      simp only [decide_eq_true_eq] at hoe
      exact List.mem_map.mpr ⟨o, ho, hoe⟩
    have hids : (m.map (fun o => if o.id = e.id then e else o)).map (fun p => p.id) =
        m.map (fun p => p.id) := by
      rw [List.map_map]
      apply List.map_congr_left
      intro o _
      by_cases h : o.id = e.id
      · simp [h]
      · simp [h]
    rw [hids]
    constructor
    · exact Or.inl
    · rintro (h | h)
      · exact h
      · rw [h]; exact hmem
  · rw [if_neg hany]
    simp

theorem mem_ids_foldl_mset (ws : List NodePosition) : ∀ (m : List NodePosition) (k : String),
    k ∈ (ws.foldl mset m).map (fun p => p.id) ↔
      k ∈ m.map (fun p => p.id) ∨ k ∈ ws.map (fun p => p.id) := by
  induction ws with
  | nil => intro m k; simp
  | cons e ws ih =>
    intro m k
    rw [List.foldl_cons, ih, mem_ids_mset]
    simp only [List.map_cons, List.mem_cons]
    tauto

theorem find?_map_update {m : List NodePosition} {e : NodePosition} {k : String}
    (h : e.id ≠ k) :
    (m.map (fun o => if o.id = e.id then e else o)).find? (fun o => o.id = k) =
      m.find? (fun o => o.id = k) := by
  induction m with
  | nil => rfl
  | cons o os ih =>
    rw [List.map_cons]
    by_cases ho : o.id = e.id
    · rw [if_pos ho]
      rw [List.find?_cons_of_neg _ (by simp [h]), List.find?_cons_of_neg _ (by simp [ho, h])]
      exact ih
    · rw [if_neg ho]
      by_cases hk : o.id = k
      · rw [List.find?_cons_of_pos _ (by simp [hk]), List.find?_cons_of_pos _ (by simp [hk])]
      · rw [List.find?_cons_of_neg _ (by simp [hk]), List.find?_cons_of_neg _ (by simp [hk])]
        exact ih

theorem posGet_mset_ne {m : List NodePosition} {e : NodePosition} {k : String}
    (h : e.id ≠ k) : posGet (mset m e) k = posGet m k := by
  unfold posGet mset
  by_cases hany : m.any (fun o => o.id = e.id)
  · rw [if_pos hany]
    exact find?_map_update h
  · rw [if_neg hany]
    rw [List.find?_append]
    rw [List.find?_cons_of_neg _ (by simp [h])]
    cases hf : m.find? (fun o => decide (o.id = k)) with
    | some v => rfl
    | none => rfl

theorem posGet_foldl_mset_ne (ws : List NodePosition) : ∀ (m : List NodePosition) (k : String),
    k ∉ ws.map (fun p => p.id) → posGet (ws.foldl mset m) k = posGet m k := by
  induction ws with
  | nil => intro m k _; rfl
  | cons e ws ih =>
    intro m k hk
    simp only [List.map_cons, List.mem_cons, not_or] at hk
    rw [List.foldl_cons, ih _ _ hk.2, posGet_mset_ne (fun h => hk.1 h.symm)]

theorem mset_fresh {m : List NodePosition} {e : NodePosition}
    (h : e.id ∉ m.map (fun p => p.id)) : mset m e = m ++ [e] := by
  unfold mset
  rw [if_neg]
  intro hany
  obtain ⟨o, ho, hoe⟩ := List.any_eq_true.mp hany
  simp only [decide_eq_true_eq] at hoe
  exact h (List.mem_map.mpr ⟨o, ho, hoe⟩)

theorem foldl_mset_of_nodup (ws : List NodePosition) : ∀ (m : List NodePosition),
    (ws.map (fun p => p.id)).Nodup →
    (∀ k ∈ ws.map (fun p => p.id), k ∉ m.map (fun p => p.id)) →
    ws.foldl mset m = m ++ ws := by
  induction ws with
  | nil => intro m _ _; simp
  | cons e ws ih =>
    intro m hnd hdis
    rw [List.foldl_cons, mset_fresh (hdis e.id (by simp))]
    rw [List.map_cons, List.nodup_cons] at hnd
    have hdis2 : ∀ k ∈ ws.map (fun p => p.id), k ∉ (m ++ [e]).map (fun p => p.id) := by
      intro k hk
      rw [List.map_append, List.mem_append]
      rintro (h | h)
      · exact hdis k (by simp [hk]) h
      · simp only [List.map_cons, List.map_nil, List.mem_singleton] at h
        exact hnd.1 (h ▸ hk)
    rw [ih (m ++ [e]) hnd.2 hdis2, List.append_assoc]
    rfl

theorem find?_of_nodup_mem {l : List NodePosition} {q : NodePosition}
    (hnd : (l.map (fun p => p.id)).Nodup) (hq : q ∈ l) :
    posGet l q.id = some q := by
  induction l with
  | nil => simp at hq
  | cons o os ih =>
    rw [List.map_cons, List.nodup_cons] at hnd
    rcases List.mem_cons.mp hq with h | h
    · subst h
      unfold posGet
      rw [List.find?_cons_of_pos _ (by simp)]
    · unfold posGet
      rw [List.find?_cons_of_neg _ (by
        simp only [decide_eq_true_eq]
        intro heq
        exact hnd.1 (heq ▸ List.mem_map.mpr ⟨q, h, rfl⟩))]
      exact ih hnd.2 h

/-! ### Which ids the layout writes -/

mutual
theorem layoutChildBranch_ids (p : INodeData) (dims : List (String × (Nat × Nat)))
    (x y : ℚ) (dir : Side) (hs vs : ℚ) :
    (layoutChildBranch p dims x y dir hs vs).map (fun e => e.id) =
      (if p.expanded then getVisibleNodesList p.children else []).map
        (fun n => n.id) := by
  cases p with
  | mk i t l cs e =>
    rw [layoutChildBranch]
    cases e with
    | false => simp [INodeData.expanded]
    | true =>
      cases cs with
      | nil => simp [INodeData.expanded, INodeData.children, getVisibleNodesList]
      | cons c rest =>
        simp only [INodeData.expanded, INodeData.children, Bool.not_true, List.isEmpty_cons,
          Bool.false_or, Bool.or_self, if_false, if_true]
        exact layoutChildren_ids (c :: rest) i dims _ _ dir hs vs

theorem layoutChildren_ids (cs : List INodeData) (pid : String)
    (dims : List (String × (Nat × Nat))) (ax yo : ℚ) (dir : Side) (hs vs : ℚ) :
    (layoutChildren cs pid dims ax yo dir hs vs).map (fun e => e.id) =
      (getVisibleNodesList cs).map (fun n => n.id) := by
  cases cs with
  | nil => rfl
  | cons c rest =>
    rw [layoutChildren, getVisibleNodesList]
    simp only [List.map_cons, List.map_append, List.cons_append]
    have hc : (mkChildPos c (ax + sideSign dir * ((((dimOf dims c.id).1 : ℚ)) / 2))
        (yo + calculateNodeBranchHeight c dims vs / 2) (dimOf dims c.id) pid).id = c.id := rfl
    have hvis : (getVisibleNodes c).map (fun n => n.id) =
        c.id :: (if c.expanded then getVisibleNodesList c.children else []).map
          (fun n => n.id) := by
      cases c with
      | mk i2 t2 l2 cs2 e2 =>
        rw [getVisibleNodes]
        cases e2 with
        | false => simp [INodeData.id, INodeData.expanded]
        | true => simp [INodeData.id, INodeData.expanded, INodeData.children]
    have hrec : (if c.expanded && !c.children.isEmpty then
          layoutChildBranch c dims (ax + sideSign dir * ((((dimOf dims c.id).1 : ℚ)) / 2))
            (yo + calculateNodeBranchHeight c dims vs / 2) dir hs vs
        else []).map (fun e => e.id) =
        (if c.expanded then getVisibleNodesList c.children else []).map (fun n => n.id) := by
      cases hce : c.expanded with
      | false => simp
      | true =>
        cases hcc : c.children with
        | nil => simp [getVisibleNodesList]
        | cons d ds =>
          simp only [Bool.true_and, hcc, List.isEmpty_cons, Bool.not_false, if_true]
          rw [layoutChildBranch_ids c dims _ _ dir hs vs, hce, hcc]
          simp
    rw [hvis, List.cons_append, hc, hrec,
      layoutChildren_ids rest pid dims ax
        (yo + calculateNodeBranchHeight c dims vs + vs) dir hs vs]
end

theorem getVisibleNodesList_append (l1 l2 : List INodeData) :
    getVisibleNodesList (l1 ++ l2) = getVisibleNodesList l1 ++ getVisibleNodesList l2 := by
  induction l1 with
  | nil => rfl
  | cons c cs ih =>
    rw [List.cons_append, getVisibleNodesList, getVisibleNodesList, ih, List.append_assoc]

/-- The ids written by `calculateLayout` in `both` mode, in order. -/
theorem layoutWrites_ids_both (root : INodeData) (opts : LayoutOptions)
    (hd : opts.direction = .both) :
    (layoutWrites root opts).map (fun e => e.id) =
      root.id :: (getVisibleNodesList root.children).map (fun n => n.id) := by
  obtain ⟨dir, hs, vs, nw, nh, co, lsm⟩ := opts
  subst hd
  simp only [layoutWrites]
  rw [calculateBothDirectionLayout]
  cases hcs : root.children with
  | nil =>
    simp only [List.isEmpty_nil, if_true]
    rw [getVisibleNodesList]
    rfl
  | cons c rest =>
    simp only [List.isEmpty_cons, Bool.false_eq_true, if_false]
    simp only [List.cons_append, List.map_cons, List.cons.injEq]
    refine ⟨rfl, ?_⟩
    rw [List.map_append]
    have htd : (c :: rest).take (((c :: rest).length + 1) / 2) ++
        (c :: rest).drop (((c :: rest).length + 1) / 2) = c :: rest :=
      List.take_append_drop _ _
    by_cases hl : ((c :: rest).take (((c :: rest).length + 1) / 2)).isEmpty
    · exfalso
      have hemp : (c :: rest).take (((c :: rest).length + 1) / 2) = [] :=
        List.isEmpty_iff.mp hl
      have h0 : min (((c :: rest).length + 1) / 2) (c :: rest).length = 0 := by
        rw [← List.length_take, hemp]
        rfl
      simp only [List.length_cons] at h0
      omega
    · rw [if_pos (by simpa using hl)]
      rw [layoutChildren_ids]
      by_cases hr : ((c :: rest).drop (((c :: rest).length + 1) / 2)).isEmpty
      · have hdp : (c :: rest).drop (((c :: rest).length + 1) / 2) = [] :=
          List.isEmpty_iff.mp hr
        rw [hdp] at htd
        rw [hdp, if_neg (by simp)]
        rw [List.append_nil] at htd
        rw [List.map_nil, List.append_nil, htd]
      · rw [if_pos (by simpa using hr), layoutChildren_ids]
        rw [← List.map_append, ← getVisibleNodesList_append, htd]

/-- The ids written by `calculateLayout` in a single-direction mode. -/
theorem layoutWrites_ids_single (root : INodeData) (opts : LayoutOptions)
    (hd : opts.direction ≠ .both) :
    (layoutWrites root opts).map (fun e => e.id) =
      (getVisibleNodes root).map (fun n => n.id) := by
  obtain ⟨dir, hs, vs, nw, nh, co, lsm⟩ := opts
  have hbody : ∀ d : Side,
      (calculateSingleDirectionLayout root
          (calculateNodeDimensions (getAllNodes root)) hs vs d).map (fun e => e.id) =
        (getVisibleNodes root).map (fun n => n.id) := by
    intro d
    rw [calculateSingleDirectionLayout]
    cases root with
    | mk i t l cs e =>
      rw [getVisibleNodes]
      simp only [List.map_cons, List.cons.injEq]
      refine ⟨rfl, ?_⟩
      rw [layoutChildBranch_ids]
      cases e with
      | false => simp [INodeData.expanded]
      | true => simp [INodeData.expanded, INodeData.children]
  cases dir with
  | both => exact absurd rfl hd
  | left => exact hbody .left
  | right => exact hbody .right

/-! ### Visibility: the ancestor-chain predicate matches `getVisibleNodes` -/

theorem visibleFrom_trans {r p n : INodeData} (h1 : VisibleFrom r p)
    (h2 : VisibleFrom p n) : VisibleFrom r n := by
  induction h2 with
  | refl => exact h1
  | child _ he hc ih => exact VisibleFrom.child ih he hc

theorem self_mem_getVisibleNodes (c : INodeData) : c ∈ getVisibleNodes c := by
  cases c with
  | mk i t l cs e =>
    rw [getVisibleNodes]
    exact List.mem_cons_self _ _

theorem mem_visList_of_mem {c : INodeData} {cs : List INodeData} (h : c ∈ cs) :
    c ∈ getVisibleNodesList cs := by
  induction cs with
  | nil => simp at h
  | cons d ds ih =>
    rw [getVisibleNodesList]
    rcases List.mem_cons.mp h with h | h
    · subst h
      exact List.mem_append_left _ (self_mem_getVisibleNodes c)
    · exact List.mem_append_right _ (ih h)

theorem visList_sub {cs : List INodeData} {c : INodeData} (hc : c ∈ cs) :
    ∀ x ∈ getVisibleNodes c, x ∈ getVisibleNodesList cs := by
  induction cs with
  | nil => simp at hc
  | cons d ds ih =>
    intro x hx
    rw [getVisibleNodesList]
    rcases List.mem_cons.mp hc with h | h
    · subst h
      exact List.mem_append_left _ hx
    · exact List.mem_append_right _ (ih h x hx)

mutual
theorem vis_step (r : INodeData) : ∀ p c : INodeData, p ∈ getVisibleNodes r →
    p.expanded = true → c ∈ p.children → c ∈ getVisibleNodes r := by
  cases r with
  | mk i t l cs e =>
    intro p c hp he hc
    rw [getVisibleNodes] at hp ⊢
    rcases List.mem_cons.mp hp with h | h
    · subst h
      have he2 : e = true := he
      subst he2
      rw [if_pos rfl]
      exact List.mem_cons_of_mem _ (mem_visList_of_mem hc)
    · cases e with
      | false => simp at h
      | true =>
        rw [if_pos rfl] at h ⊢
        exact List.mem_cons_of_mem _ (vis_stepList cs p c h he hc)

theorem vis_stepList (rs : List INodeData) : ∀ p c : INodeData,
    p ∈ getVisibleNodesList rs → p.expanded = true → c ∈ p.children →
    c ∈ getVisibleNodesList rs := by
  cases rs with
  | nil => intro p c hp; rw [getVisibleNodesList] at hp; simp at hp
  | cons r rest =>
    intro p c hp he hc
    rw [getVisibleNodesList] at hp ⊢
    rcases List.mem_append.mp hp with h | h
    · exact List.mem_append_left _ (vis_step r p c h he hc)
    · exact List.mem_append_right _ (vis_stepList rest p c h he hc)
end

theorem mem_getVisibleNodes_of_visible {r n : INodeData} (h : VisibleFrom r n) :
    n ∈ getVisibleNodes r := by
  induction h with
  | refl => exact self_mem_getVisibleNodes r
  | child _ he hc ih => exact vis_step r _ _ ih he hc

mutual
theorem visible_of_mem (r : INodeData) : ∀ n, n ∈ getVisibleNodes r → VisibleFrom r n := by
  cases r with
  | mk i t l cs e =>
    intro n hn
    rw [getVisibleNodes] at hn
    rcases List.mem_cons.mp hn with h | h
    · subst h
      exact VisibleFrom.refl
    · cases e with
      | false => simp at h
      | true =>
        rw [if_pos rfl] at h
        obtain ⟨c, hc, hv⟩ := visible_of_memList cs n h
        refine visibleFrom_trans ?_ hv
        exact VisibleFrom.child VisibleFrom.refl rfl hc

theorem visible_of_memList (rs : List INodeData) : ∀ n, n ∈ getVisibleNodesList rs →
    ∃ c ∈ rs, VisibleFrom c n := by
  cases rs with
  | nil => intro n hn; rw [getVisibleNodesList] at hn; simp at hn
  | cons r rest =>
    intro n hn
    rw [getVisibleNodesList] at hn
    rcases List.mem_append.mp hn with h | h
    · exact ⟨r, List.mem_cons_self _ _, visible_of_mem r n h⟩
    · obtain ⟨c, hc, hv⟩ := visible_of_memList rest n h
      exact ⟨c, List.mem_cons_of_mem _ hc, hv⟩
end

theorem visible_iff_mem_ids {r : INodeData} {k : String} :
    (∃ n, VisibleFrom r n ∧ n.id = k) ↔ k ∈ (getVisibleNodes r).map (fun n => n.id) := by
  constructor
  · rintro ⟨n, hv, rfl⟩
    exact List.mem_map.mpr ⟨n, mem_getVisibleNodes_of_visible hv, rfl⟩
  · intro hm
    obtain ⟨n, hn, rfl⟩ := List.mem_map.mp hm
    exact ⟨n, visible_of_mem r n hn, rfl⟩

theorem visibleList_iff_mem_ids {cs : List INodeData} {k : String} :
    (∃ c ∈ cs, ∃ n, VisibleFrom c n ∧ n.id = k) ↔
      k ∈ (getVisibleNodesList cs).map (fun n => n.id) := by
  constructor
  · rintro ⟨c, hc, n, hv, rfl⟩
    exact List.mem_map.mpr ⟨n, visList_sub hc n (mem_getVisibleNodes_of_visible hv), rfl⟩
  · intro hm
    obtain ⟨n, hn, rfl⟩ := List.mem_map.mp hm
    obtain ⟨c, hc, hv⟩ := visible_of_memList cs n hn
    exact ⟨c, hc, n, hv, rfl⟩

/-! ### Claim C1 -/

/-- C1 (amended): the position map's keys are exactly — in `left`/`right`
mode — the nodes all of whose proper ancestors are expanded (`VisibleFrom
root`), but in `both` mode the root's own `expanded` flag is ignored: the keys
are the root plus every node reachable from a root child through expanded
ancestors, whether or not the root is expanded. -/
theorem layout_entry_visibility (root : INodeData) (opts : LayoutOptions) (k : String) :
    k ∈ (calculateLayout root opts).map (fun p => p.id) ↔
      (if opts.direction = .both then
        k = root.id ∨ ∃ c ∈ root.children, ∃ n, VisibleFrom c n ∧ n.id = k
      else ∃ n, VisibleFrom root n ∧ n.id = k) := by
  have h0 : k ∈ (calculateLayout root opts).map (fun p => p.id) ↔
      k ∈ (layoutWrites root opts).map (fun p => p.id) := by
    rw [calculateLayout, mem_ids_foldl_mset]
    simp
  rw [h0]
  by_cases hd : opts.direction = .both
  · rw [if_pos hd, layoutWrites_ids_both root opts hd]
    have hb := @visibleList_iff_mem_ids root.children k
    simp only [List.mem_cons]
    exact or_congr Iff.rfl hb.symm
  · rw [if_neg hd, layoutWrites_ids_single root opts hd]
    exact visible_iff_mem_ids.symm

/-- Counterexample to C1 as stated: with `direction = both` and a collapsed
root, the root's only child still receives a position, although its proper
ancestor (the root) is not expanded. -/
theorem layout_entry_visibility_counterexample :
    (INodeData.mk "root" "Topic" 0 [.mk "node-0" "A" 1 [] false] false).expanded = false
    ∧ "node-0" ∈ (calculateLayout
        (.mk "root" "Topic" 0 [.mk "node-0" "A" 1 [] false] false)
        defaultLayoutOptions).map (fun p => p.id) := by
  exact ⟨rfl, by decide⟩

/-! ### Claim C2 -/

mutual
theorem mem_all_of_mem_vis (r : INodeData) : ∀ n, n ∈ getVisibleNodes r →
    n ∈ getAllNodes r := by
  cases r with
  | mk i t l cs e =>
    intro n hn
    rw [getVisibleNodes] at hn
    rw [getAllNodes]
    rcases List.mem_cons.mp hn with h | h
    · exact h ▸ List.mem_cons_self _ _
    · cases e with
      | false => simp at h
      | true =>
        rw [if_pos rfl] at h
        exact List.mem_cons_of_mem _ (mem_allList_of_mem_visList cs n h)

theorem mem_allList_of_mem_visList (rs : List INodeData) : ∀ n,
    n ∈ getVisibleNodesList rs → n ∈ getAllNodesList rs := by
  cases rs with
  | nil => intro n hn; rw [getVisibleNodesList] at hn; simp at hn
  | cons r rest =>
    intro n hn
    rw [getVisibleNodesList] at hn
    rw [getAllNodesList]
    rcases List.mem_append.mp hn with h | h
    · exact List.mem_append_left _ (mem_all_of_mem_vis r n h)
    · exact List.mem_append_right _ (mem_allList_of_mem_visList rest n h)
end

theorem bothWrites_head (root : INodeData) (dims : List (String × (Nat × Nat)))
    (hs vs co : ℚ) :
    ∃ ws, calculateBothDirectionLayout root dims hs vs co =
      mkRootPos root co 0 (dimOf dims root.id) :: ws := by
  rw [calculateBothDirectionLayout]
  by_cases h : root.children.isEmpty
  · exact ⟨[], by rw [if_pos h]⟩
  · rw [if_neg h]
    exact ⟨_, List.cons_append _ _ _⟩

/-- C2 (amended): in `both` mode the root's entry sits at
`(centerOffset, 0)`; in `left`/`right` mode `calculateSingleDirectionLayout`
ignores the `centerOffset` option and places the root at `(0, 0)`.  The
hypothesis that the root's id does not recur among its descendants keeps the
root's map entry from being overwritten. -/
theorem root_entry_position (root : INodeData) (opts : LayoutOptions)
    (hid : root.id ∉ (getAllNodesList root.children).map (fun n => n.id)) :
    ∃ e, posGet (calculateLayout root opts) root.id = some e
      ∧ e.x = (if opts.direction = .both then opts.centerOffset else 0)
      ∧ e.y = 0 := by
  have hvis : ∀ k, k ∈ (getVisibleNodesList root.children).map (fun n => n.id) →
      k ∈ (getAllNodesList root.children).map (fun n => n.id) := by
    intro k hk
    obtain ⟨n, hn, rfl⟩ := List.mem_map.mp hk
    exact List.mem_map.mpr ⟨n, mem_allList_of_mem_visList _ n hn, rfl⟩
  by_cases hd : opts.direction = .both
  · obtain ⟨ws, hws⟩ := bothWrites_head root
      (calculateNodeDimensions (getAllNodes root)) opts.horizontalSpacing
      opts.verticalSpacing opts.centerOffset
    have hw : layoutWrites root opts =
        mkRootPos root opts.centerOffset 0
          (dimOf (calculateNodeDimensions (getAllNodes root)) root.id) :: ws := by
      obtain ⟨dir, hs, vs, nw, nh, co, lsm⟩ := opts
      cases dir with
      | both => exact hws
      | left => exact absurd hd (by simp)
      | right => exact absurd hd (by simp)
    have hwids : ws.map (fun e => e.id) =
        (getVisibleNodesList root.children).map (fun n => n.id) := by
      have h1 := layoutWrites_ids_both root opts hd
      rw [hw, List.map_cons] at h1
      exact (List.cons_eq_cons.mp h1).2
    have hnot : root.id ∉ ws.map (fun e => e.id) := by
      rw [hwids]
      intro h
      exact hid (hvis _ h)
    refine ⟨mkRootPos root opts.centerOffset 0
      (dimOf (calculateNodeDimensions (getAllNodes root)) root.id), ?_, ?_, ?_⟩
    · rw [calculateLayout, hw, List.foldl_cons]
      have hm0 : mset [] (mkRootPos root opts.centerOffset 0
          (dimOf (calculateNodeDimensions (getAllNodes root)) root.id)) =
          [mkRootPos root opts.centerOffset 0
            (dimOf (calculateNodeDimensions (getAllNodes root)) root.id)] := rfl
      rw [hm0, posGet_foldl_mset_ne ws _ root.id hnot]
      unfold posGet
      rw [List.find?_cons_of_pos _ (by simp [mkRootPos])]
    · rw [if_pos hd]
      rfl
    · rfl
  · have hw : layoutWrites root opts =
        mkRootPos root 0 0
          (dimOf (calculateNodeDimensions (getAllNodes root)) root.id) ::
          layoutChildBranch root (calculateNodeDimensions (getAllNodes root)) 0 0
            (if opts.direction = .left then .left else .right)
            opts.horizontalSpacing opts.verticalSpacing := by
      obtain ⟨dir, hs, vs, nw, nh, co, lsm⟩ := opts
      cases dir with
      | both => exact absurd rfl hd
      | left => rfl
      | right => rfl
    have hwids : (layoutChildBranch root (calculateNodeDimensions (getAllNodes root)) 0 0
        (if opts.direction = .left then .left else .right)
        opts.horizontalSpacing opts.verticalSpacing).map (fun e => e.id) =
        ((if root.expanded then getVisibleNodesList root.children else []).map
          (fun n => n.id)) := layoutChildBranch_ids _ _ _ _ _ _ _
    have hnot : root.id ∉ (layoutChildBranch root
        (calculateNodeDimensions (getAllNodes root)) 0 0
        (if opts.direction = .left then .left else .right)
        opts.horizontalSpacing opts.verticalSpacing).map (fun e => e.id) := by
      rw [hwids]
      cases root.expanded with
      | false => simp
      | true =>
        intro h
        exact hid (hvis _ (by simpa using h))
    refine ⟨mkRootPos root 0 0
      (dimOf (calculateNodeDimensions (getAllNodes root)) root.id), ?_, ?_, ?_⟩
    · rw [calculateLayout, hw, List.foldl_cons]
      have hm0 : mset [] (mkRootPos root 0 0
          (dimOf (calculateNodeDimensions (getAllNodes root)) root.id)) =
          [mkRootPos root 0 0
            (dimOf (calculateNodeDimensions (getAllNodes root)) root.id)] := rfl
      rw [hm0, posGet_foldl_mset_ne _ _ root.id hnot]
      unfold posGet
      rw [List.find?_cons_of_pos _ (by simp [mkRootPos])]
    · rw [if_neg hd]
      rfl
    · rfl

/-- Witness for C2 (amended) on a single-node tree in `left` mode. -/
theorem root_entry_position_witness :
    ∃ e, posGet (calculateLayout (.mk "root" "T" 0 [] true)
        { defaultLayoutOptions with direction := .left, centerOffset := 5 }) "root" = some e
      ∧ e.x = (if ({ defaultLayoutOptions with
            direction := .left, centerOffset := 5 } : LayoutOptions).direction = .both
          then (5 : ℚ) else 0)
      ∧ e.y = 0 :=
  root_entry_position (.mk "root" "T" 0 [] true)
    { defaultLayoutOptions with direction := .left, centerOffset := 5 } (by decide)

/-- Counterexample to C2 as stated: in `left` mode with `centerOffset = 5`
the root entry's x-coordinate is 0, not the claimed `centerOffset`. -/
theorem root_entry_position_counterexample :
    (posGet (calculateLayout (.mk "root" "T" 0 [] true)
        { defaultLayoutOptions with direction := .left, centerOffset := 5 }) "root").map
      (fun e => e.x) = some 0
    ∧ (0 : ℚ) ≠ 5 := by
  refine ⟨by decide, by norm_num⟩

/-! ### Claim C5: anchor alignment of children -/

mutual
theorem vis_sublist (r : INodeData) : List.Sublist (getVisibleNodes r) (getAllNodes r) := by
  cases r with
  | mk i t l cs e =>
    rw [getVisibleNodes, getAllNodes]
    refine List.Sublist.cons₂ _ ?_
    cases e with
    | false => simp
    | true =>
      rw [if_pos rfl]
      exact visList_sublist cs

theorem visList_sublist (rs : List INodeData) :
    List.Sublist (getVisibleNodesList rs) (getAllNodesList rs) := by
  cases rs with
  | nil => exact List.Sublist.refl _
  | cons r rest =>
    rw [getVisibleNodesList, getAllNodesList]
    exact List.Sublist.append (vis_sublist r) (visList_sublist rest)
end

theorem getAllNodes_eq (r : INodeData) :
    getAllNodes r = r :: getAllNodesList r.children := by
  cases r with
  | mk i t l cs e =>
    rw [getAllNodes]
    rfl

mutual
theorem branch_aligned (p : INodeData) (dims : List (String × (Nat × Nat)))
    (x y : ℚ) (dir : Side) (hs vs : ℚ) :
    ∀ e ∈ layoutChildBranch p dims x y dir hs vs,
      (e.parentId = some p.id ∧ NearEdge e x ((dimOf dims p.id).1 : ℚ) (levelGap hs p.level))
      ∨ (∃ q ∈ layoutChildBranch p dims x y dir hs vs,
          e.parentId = some q.id ∧ NearEdge e q.x q.width (levelGap hs q.level)) := by
  cases p with
  | mk i t l cs e =>
    intro w hw
    rw [layoutChildBranch] at hw
    cases e with
    | false => simp at hw
    | true =>
      cases cs with
      | nil => simp at hw
      | cons c rest =>
        simp only [Bool.not_true, Bool.false_or, List.isEmpty_cons,
          Bool.false_eq_true, if_false] at hw
        have h := children_aligned (c :: rest) i dims _ _ dir hs vs x
          (((dimOf dims i).1 : ℚ)) (levelGap hs l) rfl w hw
        rcases h with ⟨h1, h2⟩ | ⟨q, hq, h1, h2⟩
        · exact Or.inl ⟨h1, h2⟩
        · refine Or.inr ⟨q, ?_, h1, h2⟩
          rw [layoutChildBranch]
          simp only [Bool.not_true, Bool.false_or, List.isEmpty_cons,
            Bool.false_eq_true, if_false]
          exact hq

theorem children_aligned (cs : List INodeData) (pid : String)
    (dims : List (String × (Nat × Nat))) (ax yo : ℚ) (dir : Side) (hs vs : ℚ)
    (px pw G : ℚ) (hax : ax = px + sideSign dir * (pw / 2 + G)) :
    ∀ e ∈ layoutChildren cs pid dims ax yo dir hs vs,
      (e.parentId = some pid ∧ NearEdge e px pw G)
      ∨ (∃ q ∈ layoutChildren cs pid dims ax yo dir hs vs,
          e.parentId = some q.id ∧ NearEdge e q.x q.width (levelGap hs q.level)) := by
  cases cs with
  | nil => intro w hw; rw [layoutChildren] at hw; simp at hw
  | cons c rest =>
    intro w hw
    rw [layoutChildren] at hw
    rw [List.cons_append] at hw
    rcases List.mem_cons.mp hw with hw1 | hw2
    · subst hw1
      refine Or.inl ⟨rfl, ?_⟩
      cases dir with
      | left =>
        refine Or.inl ?_
        show ax + sideSign .left * (((dimOf dims c.id).1 : ℚ) / 2) +
          ((dimOf dims c.id).1 : ℚ) / 2 = px - (pw / 2 + G)
        rw [hax]
        simp only [sideSign]
        ring
      | right =>
        refine Or.inr ?_
        show ax + sideSign .right * (((dimOf dims c.id).1 : ℚ) / 2) -
          ((dimOf dims c.id).1 : ℚ) / 2 = px + (pw / 2 + G)
        rw [hax]
        simp only [sideSign]
        ring
    · rcases List.mem_append.mp hw2 with hwr | hwrest
      · -- inside the recursive branch of `c`
        by_cases hrec : c.expanded && !c.children.isEmpty
        · rw [if_pos hrec] at hwr
          have h := branch_aligned c dims
            (ax + sideSign dir * (((dimOf dims c.id).1 : ℚ) / 2))
            (yo + calculateNodeBranchHeight c dims vs / 2) dir hs vs w hwr
          rcases h with ⟨h1, h2⟩ | ⟨q, hq, h1, h2⟩
          · refine Or.inr ⟨mkChildPos c
              (ax + sideSign dir * (((dimOf dims c.id).1 : ℚ) / 2))
              (yo + calculateNodeBranchHeight c dims vs / 2) (dimOf dims c.id) pid, ?_, ?_, ?_⟩
            · rw [layoutChildren, List.cons_append]
              exact List.mem_cons_self _ _
            · exact h1
            · exact h2
          · refine Or.inr ⟨q, ?_, h1, h2⟩
            rw [layoutChildren, List.cons_append]
            refine List.mem_cons_of_mem _ (List.mem_append_left _ ?_)
            rw [if_pos hrec]
            exact hq
        · rw [if_neg hrec] at hwr
          simp at hwr
      · have h := children_aligned rest pid dims ax
          (yo + calculateNodeBranchHeight c dims vs + vs) dir hs vs px pw G hax w hwrest
        rcases h with ⟨h1, h2⟩ | ⟨q, hq, h1, h2⟩
        · exact Or.inl ⟨h1, h2⟩
        · refine Or.inr ⟨q, ?_, h1, h2⟩
          rw [layoutChildren, List.cons_append]
          exact List.mem_cons_of_mem _ (List.mem_append_right _ hq)
end

theorem visIds_take_subset (cs : List INodeData) (n : Nat) {k : String}
    (h : k ∈ (getVisibleNodesList (cs.take n)).map (fun m => m.id)) :
    k ∈ (getVisibleNodesList cs).map (fun m => m.id) := by
  rw [← List.take_append_drop n cs, getVisibleNodesList_append, List.map_append]
  exact List.mem_append_left _ h

theorem visIds_drop_subset (cs : List INodeData) (n : Nat) {k : String}
    (h : k ∈ (getVisibleNodesList (cs.drop n)).map (fun m => m.id)) :
    k ∈ (getVisibleNodesList cs).map (fun m => m.id) := by
  rw [← List.take_append_drop n cs, getVisibleNodesList_append, List.map_append]
  exact List.mem_append_right _ h

theorem both_aligned (root : INodeData) (dims : List (String × (Nat × Nat)))
    (hs vs co : ℚ) :
    ∀ e ∈ calculateBothDirectionLayout root dims hs vs co,
      e = mkRootPos root co 0 (dimOf dims root.id)
      ∨ (e.parentId = some root.id
          ∧ NearEdge e co ((dimOf dims root.id).1 : ℚ) (hs * (1/2)))
      ∨ (∃ q ∈ calculateBothDirectionLayout root dims hs vs co,
          q.id ∈ (getVisibleNodesList root.children).map (fun n => n.id)
          ∧ e.parentId = some q.id ∧ NearEdge e q.x q.width (levelGap hs q.level)) := by
  intro e he
  rw [calculateBothDirectionLayout] at he
  by_cases hemp : root.children.isEmpty
  · rw [if_pos hemp] at he
    exact Or.inl (List.mem_singleton.mp he)
  · rw [if_neg hemp, List.cons_append] at he
    rcases List.mem_cons.mp he with h | h
    · exact Or.inl h
    · rcases List.mem_append.mp h with hL | hR
      · by_cases hg : (root.children.take ((root.children.length + 1) / 2)).isEmpty
        · rw [if_neg (by simp [hg])] at hL
          simp at hL
        · rw [if_pos (by simpa using hg)] at hL
          have hal := children_aligned
            (root.children.take ((root.children.length + 1) / 2)) root.id dims
            (co - ((dimOf dims root.id).1 : ℚ) / 2 - hs * (1/2))
            (-(calculateSubtreeHeight (root.children.take ((root.children.length + 1) / 2))
              dims vs / 2))
            .left hs vs co ((dimOf dims root.id).1 : ℚ) (hs * (1/2))
            (by simp only [sideSign]; ring) e hL
          rcases hal with ⟨h1, h2⟩ | ⟨q, hq, h1, h2⟩
          · exact Or.inr (Or.inl ⟨h1, h2⟩)
          · refine Or.inr (Or.inr ⟨q, ?_, ?_, h1, h2⟩)
            · rw [calculateBothDirectionLayout]
              rw [if_neg hemp, List.cons_append]
              refine List.mem_cons_of_mem _ (List.mem_append_left _ ?_)
              rw [if_pos (by simpa using hg)]
              exact hq
            · refine visIds_take_subset root.children ((root.children.length + 1) / 2) ?_
              rw [← layoutChildren_ids (root.children.take ((root.children.length + 1) / 2))
                root.id dims (co - ((dimOf dims root.id).1 : ℚ) / 2 - hs * (1/2))
                (-(calculateSubtreeHeight
                  (root.children.take ((root.children.length + 1) / 2)) dims vs / 2))
                .left hs vs]
              exact List.mem_map.mpr ⟨q, hq, rfl⟩
      · by_cases hg : (root.children.drop ((root.children.length + 1) / 2)).isEmpty
        · rw [if_neg (by simp [hg])] at hR
          simp at hR
        · rw [if_pos (by simpa using hg)] at hR
          have hal := children_aligned
            (root.children.drop ((root.children.length + 1) / 2)) root.id dims
            (co + ((dimOf dims root.id).1 : ℚ) / 2 + hs * (1/2))
            (-(calculateSubtreeHeight (root.children.drop ((root.children.length + 1) / 2))
              dims vs / 2))
            .right hs vs co ((dimOf dims root.id).1 : ℚ) (hs * (1/2))
            (by simp only [sideSign]; ring) e hR
          rcases hal with ⟨h1, h2⟩ | ⟨q, hq, h1, h2⟩
          · exact Or.inr (Or.inl ⟨h1, h2⟩)
          · refine Or.inr (Or.inr ⟨q, ?_, ?_, h1, h2⟩)
            · rw [calculateBothDirectionLayout]
              rw [if_neg hemp, List.cons_append]
              refine List.mem_cons_of_mem _ (List.mem_append_right _ ?_)
              rw [if_pos (by simpa using hg)]
              exact hq
            · refine visIds_drop_subset root.children ((root.children.length + 1) / 2) ?_
              rw [← layoutChildren_ids (root.children.drop ((root.children.length + 1) / 2))
                root.id dims (co + ((dimOf dims root.id).1 : ℚ) / 2 + hs * (1/2))
                (-(calculateSubtreeHeight
                  (root.children.drop ((root.children.length + 1) / 2)) dims vs / 2))
                .right hs vs]
              exact List.mem_map.mpr ⟨q, hq, rfl⟩

theorem single_aligned (root : INodeData) (dims : List (String × (Nat × Nat)))
    (hs vs : ℚ) (d : Side) :
    ∀ e ∈ calculateSingleDirectionLayout root dims hs vs d,
      e = mkRootPos root 0 0 (dimOf dims root.id)
      ∨ (e.parentId = some root.id
          ∧ NearEdge e 0 ((dimOf dims root.id).1 : ℚ) (levelGap hs root.level))
      ∨ (∃ q ∈ calculateSingleDirectionLayout root dims hs vs d,
          q.id ∈ (getVisibleNodesList root.children).map (fun n => n.id)
          ∧ e.parentId = some q.id ∧ NearEdge e q.x q.width (levelGap hs q.level)) := by
  intro e he
  rw [calculateSingleDirectionLayout] at he
  rcases List.mem_cons.mp he with h | h
  · exact Or.inl h
  · have hal := branch_aligned root dims 0 0 d hs vs e h
    rcases hal with ⟨h1, h2⟩ | ⟨q, hq, h1, h2⟩
    · exact Or.inr (Or.inl ⟨h1, h2⟩)
    · refine Or.inr (Or.inr ⟨q, ?_, ?_, h1, h2⟩)
      · rw [calculateSingleDirectionLayout]
        exact List.mem_cons_of_mem _ hq
      · have hq2 : q.id ∈ (layoutChildBranch root dims 0 0 d hs vs).map (fun p => p.id) :=
          List.mem_map.mpr ⟨q, hq, rfl⟩
        rw [layoutChildBranch_ids] at hq2
        cases hre : root.expanded with
        | false => rw [hre] at hq2; simp at hq2
        | true => rw [hre] at hq2; simpa using hq2

/-- C5 (amended): for distinct-id trees, every positioned child's near
horizontal edge lies on the anchor line `parentX ± (parentWidth/2 + g)`
(left-side children right-aligned, right-side children left-aligned), where
`g = horizontalSpacing × m × 0.6` with `m = 1.0` for parent depth ≥ 2 and
`0.8` otherwise — except that the root's immediate children in `both` mode
use `g = horizontalSpacing × 0.5` instead. -/
theorem child_anchor_alignment (root : INodeData) (opts : LayoutOptions)
    (hnd : ((getAllNodes root).map (fun n => n.id)).Nodup) :
    ∀ e ∈ calculateLayout root opts, ∀ pid, e.parentId = some pid →
      ∃ pe, posGet (calculateLayout root opts) pid = some pe
        ∧ NearEdge e pe.x pe.width
            (if opts.direction = .both ∧ pe.id = root.id
             then opts.horizontalSpacing / 2
             else levelGap opts.horizontalSpacing pe.level) := by
  have hnd2 := hnd
  rw [getAllNodes_eq, List.map_cons, List.nodup_cons] at hnd2
  have hvisall : ∀ k, k ∈ (getVisibleNodesList root.children).map (fun n => n.id) →
      k ∈ (getAllNodesList root.children).map (fun n => n.id) :=
    fun k hk => (List.Sublist.map _ (visList_sublist root.children)).subset hk
  have hwnodup : ((layoutWrites root opts).map (fun e => e.id)).Nodup := by
    by_cases hd : opts.direction = .both
    · rw [layoutWrites_ids_both root opts hd, List.nodup_cons]
      exact ⟨fun h => hnd2.1 (hvisall _ h),
        List.Nodup.sublist (List.Sublist.map _ (visList_sublist root.children)) hnd2.2⟩
    · rw [layoutWrites_ids_single root opts hd]
      exact List.Nodup.sublist (List.Sublist.map _ (vis_sublist root)) hnd
  have hcl : calculateLayout root opts = layoutWrites root opts := by
    rw [calculateLayout, foldl_mset_of_nodup _ [] hwnodup (by intro k _ h; simp at h)]
    simp
  have hres : ∀ q ∈ layoutWrites root opts, posGet (layoutWrites root opts) q.id = some q :=
    fun q hq => find?_of_nodup_mem hwnodup hq
  have hqid_ne : ∀ k, k ∈ (getVisibleNodesList root.children).map (fun n => n.id) →
      k ≠ root.id := by
    intro k hk hkr
    exact hnd2.1 (hkr ▸ hvisall _ hk)
  intro e he pid hpid
  rw [hcl] at he ⊢
  by_cases hd : opts.direction = .both
  · have hwe : layoutWrites root opts = calculateBothDirectionLayout root
        (calculateNodeDimensions (getAllNodes root)) opts.horizontalSpacing
        opts.verticalSpacing opts.centerOffset := by
      simp only [layoutWrites, hd]
    rw [hwe] at he ⊢
    have hrootmem : mkRootPos root opts.centerOffset 0
        (dimOf (calculateNodeDimensions (getAllNodes root)) root.id) ∈
        calculateBothDirectionLayout root (calculateNodeDimensions (getAllNodes root))
          opts.horizontalSpacing opts.verticalSpacing opts.centerOffset := by
      obtain ⟨ws, hws⟩ := bothWrites_head root (calculateNodeDimensions (getAllNodes root))
        opts.horizontalSpacing opts.verticalSpacing opts.centerOffset
      rw [hws]
      exact List.mem_cons_self _ _
    have hres2 := hres
    rw [hwe] at hres2
    rcases both_aligned root (calculateNodeDimensions (getAllNodes root))
      opts.horizontalSpacing opts.verticalSpacing opts.centerOffset e he with
      hroot | ⟨hpar, hne⟩ | ⟨q, hq, hqvis, hpar, hne⟩
    · rw [hroot] at hpid
      exact absurd hpid (by simp [mkRootPos])
    · have hpe : pid = root.id := by
        rw [hpar] at hpid
        exact (Option.some.injEq _ _ ▸ hpid).symm ▸ rfl
      refine ⟨mkRootPos root opts.centerOffset 0
        (dimOf (calculateNodeDimensions (getAllNodes root)) root.id), ?_, ?_⟩
      · rw [hpe]
        exact hres2 _ hrootmem
      · rw [if_pos ⟨hd, rfl⟩]
        have hhalf : opts.horizontalSpacing * (1/2) = opts.horizontalSpacing / 2 := by ring
        exact hhalf ▸ hne
    · have hpe : pid = q.id := by
        rw [hpar] at hpid
        exact ((Option.some.injEq _ _).mp hpid).symm
      refine ⟨q, ?_, ?_⟩
      · rw [hpe]
        exact hres2 _ hq
      · rw [if_neg (fun hcc => hqid_ne q.id hqvis hcc.2)]
        exact hne
  · have hside : ∃ d : Side, layoutWrites root opts = calculateSingleDirectionLayout root
        (calculateNodeDimensions (getAllNodes root)) opts.horizontalSpacing
        opts.verticalSpacing d := by
      obtain ⟨dir, hs, vs, nw, nh, co, lsm⟩ := opts
      cases dir with
      | both => exact absurd rfl hd
      | left => exact ⟨.left, rfl⟩
      | right => exact ⟨.right, rfl⟩
    obtain ⟨d, hwe⟩ := hside
    rw [hwe] at he ⊢
    have hrootmem : mkRootPos root 0 0
        (dimOf (calculateNodeDimensions (getAllNodes root)) root.id) ∈
        calculateSingleDirectionLayout root (calculateNodeDimensions (getAllNodes root))
          opts.horizontalSpacing opts.verticalSpacing d := by
      rw [calculateSingleDirectionLayout]
      exact List.mem_cons_self _ _
    have hres2 := hres
    rw [hwe] at hres2
    rcases single_aligned root (calculateNodeDimensions (getAllNodes root))
      opts.horizontalSpacing opts.verticalSpacing d e he with
      hroot | ⟨hpar, hne⟩ | ⟨q, hq, hqvis, hpar, hne⟩
    · rw [hroot] at hpid
      exact absurd hpid (by simp [mkRootPos])
    · have hpe : pid = root.id := by
        rw [hpar] at hpid
        exact ((Option.some.injEq _ _).mp hpid).symm
      refine ⟨mkRootPos root 0 0
        (dimOf (calculateNodeDimensions (getAllNodes root)) root.id), ?_, ?_⟩
      · rw [hpe]
        exact hres2 _ hrootmem
      · rw [if_neg (fun hcc => hd hcc.1)]
        exact hne
    · have hpe : pid = q.id := by
        rw [hpar] at hpid
        exact ((Option.some.injEq _ _).mp hpid).symm
      refine ⟨q, ?_, ?_⟩
      · rw [hpe]
        exact hres2 _ hq
      · rw [if_neg (fun hcc => hd hcc.1)]
        exact hne

theorem calcLayout_chain :
    calculateLayout
        (.mk "root" "Topic" 0 [.mk "node-0" "A" 1 [.mk "node-1" "B" 2 [] false] true] true)
        defaultLayoutOptions =
      [⟨"root", "Topic", 0, 0, 116, 52, 0, true, true, none⟩,
       ⟨"node-0", "A", -158, 0, 60, 36, 1, true, true, some "root"⟩,
       ⟨"node-1", "B", -1426/5, 0, 60, 32, 2, false, false, some "node-0"⟩] := by
  have hdims : calculateNodeDimensions (getAllNodes (INodeData.mk "root" "Topic" 0
      [INodeData.mk "node-0" "A" 1 [INodeData.mk "node-1" "B" 2 [] false] true] true)) =
      [("root",(116,52)),("node-0",(60,36)),("node-1",(60,32))] := by decide
  have hd1 : nodeDimension (INodeData.mk "root" "Topic" 0
      [INodeData.mk "node-0" "A" 1 [INodeData.mk "node-1" "B" 2 [] false] true] true) =
      (116,52) := by decide
  have hd2 : nodeDimension (INodeData.mk "node-0" "A" 1
      [INodeData.mk "node-1" "B" 2 [] false] true) = (60,36) := by decide
  have hd3 : nodeDimension (INodeData.mk "node-1" "B" 2 [] false) = (60,32) := by decide
  rw [calculateLayout, layoutWrites]
  norm_num +decide [hdims, hd1, hd2, hd3, defaultLayoutOptions, calculateBothDirectionLayout,
    layoutChildBranch,
    layoutChildren, mkChildPos, mkRootPos, dimOf, mapGet, calculateNodeBranchHeight,
    calculateSubtreeHeight, sumBranchHeights, sideSign, mset, INodeData.id, INodeData.text,
    INodeData.level, INodeData.children, INodeData.expanded, List.foldl, List.find?]

theorem calcLayout_pair :
    calculateLayout (.mk "root" "Topic" 0 [.mk "node-0" "A" 1 [] true] true)
        defaultLayoutOptions =
      [⟨"root", "Topic", 0, 0, 116, 52, 0, true, true, none⟩,
       ⟨"node-0", "A", -158, 0, 60, 36, 1, false, true, some "root"⟩] := by
  have hdims : calculateNodeDimensions (getAllNodes (INodeData.mk "root" "Topic" 0
      [INodeData.mk "node-0" "A" 1 [] true] true)) =
      [("root",(116,52)),("node-0",(60,36))] := by decide
  have hd1 : nodeDimension (INodeData.mk "root" "Topic" 0
      [INodeData.mk "node-0" "A" 1 [] true] true) = (116,52) := by decide
  have hd2 : nodeDimension (INodeData.mk "node-0" "A" 1 [] true) = (60,36) := by decide
  rw [calculateLayout, layoutWrites]
  norm_num +decide [hdims, hd1, hd2, defaultLayoutOptions, calculateBothDirectionLayout,
    layoutChildBranch,
    layoutChildren, mkChildPos, mkRootPos, dimOf, mapGet, calculateNodeBranchHeight,
    calculateSubtreeHeight, sumBranchHeights, sideSign, mset, INodeData.id, INodeData.text,
    INodeData.level, INodeData.children, INodeData.expanded, List.foldl, List.find?]

/-- Witness for C5 (amended) at a concrete grandchild entry. -/
theorem child_anchor_alignment_witness :
    ∃ pe, posGet (calculateLayout
        (.mk "root" "Topic" 0 [.mk "node-0" "A" 1 [.mk "node-1" "B" 2 [] false] true] true)
        defaultLayoutOptions) "node-0" = some pe
      ∧ NearEdge ⟨"node-1", "B", -1426/5, 0, 60, 32, 2, false, false, some "node-0"⟩
          pe.x pe.width
          (if defaultLayoutOptions.direction = .both ∧ pe.id =
              (INodeData.mk "root" "Topic" 0
                [.mk "node-0" "A" 1 [.mk "node-1" "B" 2 [] false] true] true).id
           then defaultLayoutOptions.horizontalSpacing / 2
           else levelGap defaultLayoutOptions.horizontalSpacing pe.level) :=
  child_anchor_alignment
    (.mk "root" "Topic" 0 [.mk "node-0" "A" 1 [.mk "node-1" "B" 2 [] false] true] true)
    defaultLayoutOptions (by decide)
    ⟨"node-1", "B", -1426/5, 0, 60, 32, 2, false, false, some "node-0"⟩
    (by rw [calcLayout_chain]
        exact List.mem_cons_of_mem _ (List.mem_cons_of_mem _ (List.mem_cons_self _ _)))
    "node-0" rfl

/-- Counterexample to C5 as stated: with `direction = both` and default
options, the root's only child is laid out on the left, and its near (right)
edge sits at `-128`, while the claimed anchor lines
`±(rootWidth/2 + horizontalSpacing × 0.8 × 0.6) = ±125.2` (the root's depth is
0, so `m = 0.8`) match neither the child's right edge nor its left edge. -/
theorem child_anchor_alignment_counterexample :
    ((posGet (calculateLayout
        (.mk "root" "Topic" 0 [.mk "node-0" "A" 1 [] true] true)
        defaultLayoutOptions) "node-0").map (fun e => e.x + e.width / 2)) = some (-128)
    ∧ ((posGet (calculateLayout
        (.mk "root" "Topic" 0 [.mk "node-0" "A" 1 [] true] true)
        defaultLayoutOptions) "node-0").map (fun e => e.x - e.width / 2)) = some (-188)
    ∧ (-128 : ℚ) ≠ 0 - (116 / 2 + 140 * (4/5) * (3/5))
    ∧ (-188 : ℚ) ≠ 0 + (116 / 2 + 140 * (4/5) * (3/5)) := by
  refine ⟨?_, ?_, by norm_num, by norm_num⟩
  · rw [calcLayout_pair]
    show some ((-158 : ℚ) + 60 / 2) = some (-128)
    norm_num
  · rw [calcLayout_pair]
    show some ((-158 : ℚ) - 60 / 2) = some (-188)
    norm_num

end AutoMindmap
